import Mathlib

/-!
Verification of the bordoc repository: a pure-Python Git engine (truegit.py)
and a dulwich-backed file-level façade (SimpleGit.py).

Modelling conventions:
* Byte strings are `List Nat` (one element per byte / code point).
* SHA-1 is modelled as an abstract digest function; theorems that need its
  collision-freeness take injectivity as a hypothesis, discharged in
  witnesses with a concrete injective encoding.
* The loose-object store of truegit is modelled twice: once byte-level with
  the exact header framing of `_hash_object` / `_read_object` (for the
  put/get round-trip claims), and once structurally (payloads kept as
  parsed values) for the engine-level claims; zlib compression is a
  transparent inverse pair at the filesystem boundary and is elided.
* Recursion through the object store (trees referencing subtrees by oid)
  uses an explicit fuel parameter; the Python originals would not terminate
  on a cyclic store either, and all claims below are conditioned on the
  operation having succeeded.

The file is laid out as: all definitions first, then all theorems.
-/

namespace Bordoc

/-- Byte strings: one `Nat` per byte (or code point for decoded text). -/
abbrev Bytes := List Nat

/-- Encoding of a string to bytes, one element per code point
(coincides with UTF-8 for the ASCII data the engine writes). -/
def strBytes (s : String) : Bytes := s.data.map Char.toNat

/-- Decoding bytes back to a string (inverse of `strBytes` on valid data). -/
def bytesStr (l : Bytes) : String := String.mk (l.map Char.ofNat)

/-- Decimal digits of a natural number, as ASCII bytes (used by the
`"type len\0"` object header of `_hash_object`). -/
def natDigits (n : Nat) : Bytes :=
  if h : n < 10 then [n + 48] else natDigits (n / 10) ++ [n % 10 + 48]
termination_by n
decreasing_by exact Nat.div_lt_self (by omega) (by omega)

/-- Split a byte string at its first NUL byte: models
`data.index(b'\0')` followed by the two slices in `_read_object`.
Returns `none` when no NUL is present (`.index` raises). -/
def breakAtZero : Bytes → Option (Bytes × Bytes)
  | [] => none
  | b :: t =>
    if b = 0 then some ([], t)
    else match breakAtZero t with
      | none => none
      | some (pre, post) => some (b :: pre, post)

/-- Whitespace-split into words, dropping empty runs: models Python
`str.split()` restricted to the space character, as used on object and
commit header lines. -/
def splitWordsAux (acc : Bytes) : Bytes → List Bytes
  | [] => if acc.isEmpty then [] else [acc.reverse]
  | b :: t =>
    if b = 32 then
      if acc.isEmpty then splitWordsAux [] t else acc.reverse :: splitWordsAux [] t
    else splitWordsAux (b :: acc) t

def splitWords (l : Bytes) : List Bytes := splitWordsAux [] l

/-- Byte-wise lexicographic order. Models Python string comparison
(code-point-wise), which is what `sorted(path.iterdir())` uses on the
directory listing, and the byte-wise order in which Git expects tree
entry names to be compared. -/
def bytesLeB : Bytes → Bytes → Bool
  | [], _ => true
  | _ :: _, [] => false
  | a :: s, b :: t => if a < b then true else if b < a then false else bytesLeB s t

/-- Python comparison of path names: code-point lexicographic order. -/
def nameLeB (s t : String) : Bool := bytesLeB (strBytes s) (strBytes t)

/-- Insertion step of the sort modelling `sorted(...)` by a string key. -/
def insertByKey (key : α → String) (x : α) : List α → List α
  | [] => [x]
  | y :: t => if nameLeB (key x) (key y) then x :: y :: t else y :: insertByKey key x t

/-- Models `sorted(...)` in `_create_tree_from_index` (directory listing
sorted by name) and `sorted(...)` on string lists elsewhere. -/
def sortByKey (key : α → String) : List α → List α
  | [] => []
  | x :: t => insertByKey key x (sortByKey key t)

/-- Split a character list on `/` (full split, like `str.split('/')`). -/
def splitSlashes : List Char → List (List Char)
  | [] => [[]]
  | c :: t =>
    if c = '/' then [] :: splitSlashes t
    else match splitSlashes t with
      | [] => [[c]]
      | h :: r => (c :: h) :: r

/-- Components of a repository-relative path, mirroring Python
`Path.parts` on relative paths. -/
def pathComponents (s : String) : List String :=
  (splitSlashes s.data).map String.mk

/-- `f"..{prefix}/{name}"` style path joining used throughout the source. -/
def joinPath (pre name : String) : String :=
  if pre = "" then name else pre ++ "/" ++ name

/-- A name is a single clean path component: nonempty, no slash, not ".git". -/
def cleanName (n : String) : Prop :=
  n ≠ "" ∧ n ≠ ".git" ∧ ∀ c ∈ n.data, c ≠ '/'

instance (n : String) : Decidable (cleanName n) := by
  unfold cleanName; infer_instance

/-- Lookup in an association list (Python dict read). -/
def look [DecidableEq σ] : List (σ × α) → σ → Option α
  | [], _ => none
  | (k, v) :: t, q => if q = k then some v else look t q

/-- Insert-or-replace in an association list, preserving insertion order
(Python dict write). -/
def upsert [DecidableEq σ] : List (σ × α) → σ → α → List (σ × α)
  | [], k, v => [(k, v)]
  | (k0, v0) :: t, k, v =>
    if k = k0 then (k0, v) :: t else (k0, v0) :: upsert t k v

/-- Delete a key from an association list (Python `del d[k]`). -/
def removeKey [DecidableEq σ] : List (σ × α) → σ → List (σ × α)
  | [], _ => []
  | (k0, v0) :: t, k => if k = k0 then t else (k0, v0) :: removeKey t k

/-! ### Concrete injective digests

SHA-1 is modelled as an abstract digest; the engine relies on its
collision-freeness, which the theorems take as an injectivity hypothesis.
These computable injective encodings discharge that hypothesis in
witnesses. -/

def encN : List Nat → Nat
  | [] => 0
  | d :: t => Nat.pair d (encN t) + 1

def encChars : List Char → Nat
  | [] => 0
  | c :: t => c.toNat + 1 + 4294967296 * encChars t

def encStr (s : String) : Nat := encChars s.data

/-! ## Byte-level object store (truegit `_hash_object` / `_read_object`)

The store maps a digest value to the stored framed byte string
`"<type> <len>\0<content>"`; the on-disk path sharding
(`objects/<oid[0:2]>/<oid[2:]>`) and zlib compression are bijective
packaging elided by the model. -/

namespace ObjStore

/-- oid → stored frame. -/
abbrev Store := List (Nat × Bordoc.Bytes)

/-- The framed byte string `"<type> <len>\0<content>"` of `_hash_object`. -/
def frame (objType : String) (data : Bytes) : Bytes :=
  strBytes objType ++ 32 :: (natDigits data.length ++ 0 :: data)

/-- `_hash_object`: frame, digest, write the frame only when the object
file does not already exist; return the oid. -/
def hashObject (h : Bytes → Nat) (st : Store) (objType : String) (data : Bytes) :
    Nat × Store :=
  let stored := frame objType data
  let sha1 := h stored
  (sha1, if (look st sha1).isSome then st else (sha1, stored) :: st)

/-- `_read_object`: look the oid up (missing file raises, modelled as
`none`), split the frame at its first NUL into header and content, and
take the first word of the header as the object type. -/
def readObject (st : Store) (sha1 : Nat) : Option (String × Bytes) :=
  match look st sha1 with
  | none => none
  | some data =>
    match breakAtZero data with
    | none => none
    | some (header, content) =>
      match splitWords header with
      | [] => none
      | ty :: _ => some (bytesStr ty, content)

/-- Every stored frame hashes to its key: the invariant `_hash_object`
maintains (it only ever writes `frame` at key `h frame`). -/
def Consistent (h : Bytes → Nat) (st : Store) : Prop :=
  ∀ p ∈ st, p.1 = h p.2

instance (h : Bytes → Nat) (st : Store) : Decidable (Consistent h st) := by
  unfold Consistent; infer_instance

end ObjStore

/-! ## Structural engine model (truegit.py)

Object payloads are kept as parsed values (`GObj`); the byte serialization
and reparsing of trees and commits, verified in the byte-level section
above for the framing layer, is elided so that the engine algorithms can
be stated directly.  Oids are abstract digest values produced by a digest
parameter `h : GObj → Oid`. -/

namespace TG

/-- Object identifiers (SHA-1 digests), as abstract values. -/
abbrev Oid := Nat

/-- Parsed Git objects. A tree entry is the `(mode, name, oid)` triple of
`_parse_tree`; a commit carries the fields `_parse_commit` extracts. -/
inductive GObj where
  | blob (data : Bordoc.Bytes)
  | tree (entries : List (String × String × Oid))
  | commit (tree : Oid) (parents : List Oid) (author committer message : String)
      (date : Nat)
deriving DecidableEq

/-- The object database `objects/<aa>/<rest>`, keyed by oid. -/
abbrev Store := List (Oid × GObj)

/-- `_hash_object` (structural): digest, write only when the object file
does not already exist, return the oid. -/
def hashObject (h : GObj → Oid) (st : Store) (o : GObj) : Oid × Store :=
  let sha1 := h o
  (sha1, if (look st sha1).isSome then st else (sha1, o) :: st)

/-- `_read_object` (structural): a missing object raises, modelled as
`none`. -/
def readObject (st : Store) (sha1 : Oid) : Option GObj := look st sha1

/-- Every stored object digests to its key: the invariant `_hash_object`
maintains (it only ever writes `o` at key `h o`). -/
def Consistent (h : GObj → Oid) (st : Store) : Prop :=
  ∀ p ∈ st, p.1 = h p.2

instance (h : GObj → Oid) (st : Store) : Decidable (Consistent h st) := by
  unfold Consistent; infer_instance

/-- Index entries: `self.index[path] = dict(sha=..., mode=...)`. -/
structure IndexEntry where
  sha : Oid
  mode : String
deriving DecidableEq

/-- Working-tree filesystem nodes (the files outside and inside the
repository root; a top-level child named ".git" stands for the git
directory). -/
inductive FSNode where
  | file (content : Bordoc.Bytes) (exec : Bool)
  | dir (children : List (String × FSNode))

/-- The full engine state: working tree (root directory listing), object
store, branch refs `refs/heads/<name> → oid`, the HEAD file content, the
cached current branch, and the in-memory index dict. -/
structure GitState where
  worktree : List (String × FSNode)
  store : Store
  refs : List (String × Oid)
  head : String
  currentBranch : String
  index : List (String × IndexEntry)

/-- `_get_head_commit`: read `refs/heads/<current branch>` if present. -/
def getHeadCommit (s : GitState) : Option Oid := look s.refs s.currentBranch

mutual
/-- `_create_tree_from_index` on one directory entry: files are blobbed
with mode 100644/100755 from the executable bit; directories recurse.
Fuel only bounds the directory depth; the Python original recurses
unboundedly. -/
def createObj (h : GObj → Oid) : Nat → FSNode → Store → Option (String × Oid × Store)
  | _, .file c x, st =>
    let p := hashObject h st (.blob c)
    some (if x then "100755" else "100644", p.1, p.2)
  | 0, .dir _, _ => none
  | fuel + 1, .dir ch, st =>
    match createList h fuel (sortByKey (fun e => e.1) ch) st with
    | none => none
    | some (entries, st1) =>
      let p := hashObject h st1 (.tree entries)
      some ("40000", p.1, p.2)

/-- The `for item in sorted(path.iterdir())` loop of
`_create_tree_from_index`: skip `.git`, build each entry, thread the
store. An empty entry list yields the empty tree object, as in the
source. (Fuel decreases at every step only so that the recursion is
structural; it never runs out when chosen large enough.) -/
def createList (h : GObj → Oid) :
    Nat → List (String × FSNode) → Store →
      Option (List (String × String × Oid) × Store)
  | _, [], st => some ([], st)
  | 0, _ :: _, _ => none
  | fuel + 1, (name, node) :: rest, st =>
    if name = ".git" then createList h fuel rest st
    else
      match createObj h fuel node st with
      | none => none
      | some (mode, oid, st1) =>
        match createList h fuel rest st1 with
        | none => none
        | some (es, st2) => some ((mode, name, oid) :: es, st2)
end

/-- `_create_tree_from_index` at the repository root: sort the listing,
build the entries (skipping `.git`), hash the tree object. -/
def createTreeFromIndex (h : GObj → Oid) (fuel : Nat)
    (wt : List (String × FSNode)) (st : Store) : Option (Oid × Store) :=
  match createList h fuel (sortByKey (fun e => e.1) wt) st with
  | none => none
  | some (entries, st1) => some (hashObject h st1 (.tree entries))

/-- The dictionary `_parse_commit` produces (the author and committer
strings of the source additionally embed the date and timezone text). -/
structure CommitInfo where
  sha : Oid
  tree : Oid
  parents : List Oid
  author : String
  committer : String
  message : String
  date : Nat
deriving DecidableEq

/-- `_parse_commit`: read the object, require type commit, return its
fields.  A missing object or a non-commit object raises (`none`). -/
def parseCommit (st : Store) (sha1 : Oid) : Option CommitInfo :=
  match readObject st sha1 with
  | some (.commit t ps a c m d) => some ⟨sha1, t, ps, a, c, m, d⟩
  | _ => none

mutual
/-- `_rebuild_index_from_tree`. NOTE: the source executes
`self.index.clear()` at the top of every invocation, including the nested
recursive calls for subdirectories; the model reproduces this faithfully
(the `idx` accumulator is discarded on entry).  A non-tree object leaves
the just-cleared index and returns; a missing object raises. -/
def rebuildIndexFromTree (st : Store) :
    Nat → Oid → String → List (String × IndexEntry) →
      Option (List (String × IndexEntry))
  | 0, _, _, _ => none
  | fuel + 1, treeSha, pre, _idx =>
    match readObject st treeSha with
    | some (.tree entries) => rebuildEntries st fuel entries pre []
    | some _ => some []
    | none => none

/-- The entry loop of `_rebuild_index_from_tree`: subdirectories recurse
(each recursive call clearing the accumulated index), files are inserted
as `path → (sha, mode)`. -/
def rebuildEntries (st : Store) :
    Nat → List (String × String × Oid) → String → List (String × IndexEntry) →
      Option (List (String × IndexEntry))
  | _, [], _, idx => some idx
  | 0, _ :: _, _, _ => none
  | fuel + 1, (mode, name, sha1) :: rest, pre, idx =>
    let path := joinPath pre name
    if mode = "40000" then
      match rebuildIndexFromTree st fuel sha1 path idx with
      | none => none
      | some idx1 => rebuildEntries st fuel rest pre idx1
    else rebuildEntries st fuel rest pre (upsert idx path ⟨sha1, mode⟩)
end

/-- `TrueGit.commit`: snapshot the working directory into a tree, create
the commit object (parent = current branch tip if any), advance the
branch ref, then rebuild the index from the committed tree.  Author,
committer and date are parameters (the source defaults them). -/
def commit (h : GObj → Oid) (fuel : Nat) (s : GitState)
    (message author committer : String) (date : Nat) : Option (Oid × GitState) :=
  match createTreeFromIndex h fuel s.worktree s.store with
  | none => none
  | some (treeSha, st1) =>
    let parent := getHeadCommit s
    let cobj : GObj :=
      .commit treeSha (match parent with | none => [] | some p => [p])
        author committer message date
    let p2 := hashObject h st1 cobj
    match rebuildIndexFromTree p2.2 fuel treeSha "" s.index with
    | none => none
    | some idx =>
      some (p2.1,
        { s with store := p2.2, refs := upsert s.refs s.currentBranch p2.1,
                 index := idx })

/-- `TrueGit.log` loop: walk first parents from a starting oid; any
exception while parsing a commit (missing or malformed object) breaks the
loop silently, returning what has been accumulated.  Fuel bounds the walk
(the Python loop is unbounded when `max_count is None`). -/
def logAux (st : Store) : Nat → Option Oid → Option Nat → Nat → List CommitInfo
  | 0, _, _, _ => []
  | _ + 1, none, _, _ => []
  | fuel + 1, some sha1, maxCount, count =>
    if (maxCount.getD (count + 1)) ≤ count then []
    else
      match parseCommit st sha1 with
      | none => []
      | some info => info :: logAux st fuel info.parents.head? maxCount (count + 1)

/-- `TrueGit.log`: walk from the current branch tip. -/
def log (fuel : Nat) (s : GitState) (maxCount : Option Nat) : List CommitInfo :=
  logAux s.store fuel (getHeadCommit s) maxCount 0

/-- `create_branch`: requires a head commit; writes the new ref. -/
def createBranch (s : GitState) (name : String) : Option GitState :=
  match getHeadCommit s with
  | none => none
  | some hc => some { s with refs := upsert s.refs name hc }

mutual
/-- `_extract_tree`: materialize a stored tree into a directory listing.
`mkdir(exist_ok=True)` merges into an existing subdirectory and raises on
a file in the way; blob entries are written fresh with the executable bit
set exactly when the mode is 100755.  (The source passes non-blob
payloads to `write_bytes` unchecked; the structural model requires a
blob.) -/
def extractTree (st : Store) :
    Nat → Oid → List (String × FSNode) → Option (List (String × FSNode))
  | 0, _, _ => none
  | fuel + 1, treeSha, cur =>
    match readObject st treeSha with
    | some (.tree entries) => extractEntries st fuel entries cur
    | _ => none

/-- The entry loop of `_extract_tree`. -/
def extractEntries (st : Store) :
    Nat → List (String × String × Oid) → List (String × FSNode) →
      Option (List (String × FSNode))
  | _, [], cur => some cur
  | 0, _ :: _, _ => none
  | fuel + 1, (mode, name, sha1) :: rest, cur =>
    if mode = "40000" then
      match (match look cur name with
             | some (.dir ch) => some ch
             | some (.file _ _) => none
             | none => some ([] : List (String × FSNode))) with
      | none => none
      | some ch =>
        match extractTree st fuel sha1 ch with
        | none => none
        | some ch2 => extractEntries st fuel rest (upsert cur name (.dir ch2))
    else
      match readObject st sha1 with
      | some (.blob data) =>
        extractEntries st fuel rest (upsert cur name (.file data (mode == "100755")))
      | _ => none
end

/-- `_checkout_tree`: parse the commit, delete every top-level entry
except `.git`, then extract the commit tree into the root. -/
def checkoutTree (fuel : Nat) (st : Store) (commitSha : Oid)
    (wt : List (String × FSNode)) : Option (List (String × FSNode)) :=
  match parseCommit st commitSha with
  | none => none
  | some info =>
    extractTree st fuel info.tree (wt.filter (fun c => c.1 == ".git"))

/-- `TrueGit.switch`: fail when the target ref is missing; set the current
branch and rewrite HEAD, then check the branch tip out into the working
tree.  The index is not touched. -/
def switch (fuel : Nat) (s : GitState) (b : String) : Option GitState :=
  match look s.refs b with
  | none => none
  | some cid =>
    match checkoutTree fuel s.store cid s.worktree with
    | none => none
    | some wt2 =>
      some { s with currentBranch := b, head := "ref: refs/heads/" ++ b,
                    worktree := wt2 }

mutual
/-- Flattening of a stored tree into `(path, mode, oid)` triples, the
recursion pattern of `_walk_tree` (which maps paths to decoded blob
content; modes and oids are kept here so that properties can mention
them). -/
def walkTree (st : Store) :
    Nat → Oid → String → Option (List (String × String × Oid))
  | 0, _, _ => none
  | fuel + 1, treeSha, pre =>
    match readObject st treeSha with
    | some (.tree entries) => walkEntries st fuel entries pre
    | _ => none

def walkEntries (st : Store) :
    Nat → List (String × String × Oid) → String →
      Option (List (String × String × Oid))
  | _, [], _ => some []
  | 0, _ :: _, _ => none
  | fuel + 1, (mode, name, sha1) :: rest, pre =>
    let path := joinPath pre name
    if mode = "40000" then
      match walkTree st fuel sha1 path with
      | none => none
      | some sub =>
        match walkEntries st fuel rest pre with
        | none => none
        | some rs => some (sub ++ rs)
    else
      match walkEntries st fuel rest pre with
      | none => none
      | some rs => some ((path, mode, sha1) :: rs)
end

mutual
/-- `_walk_tree` proper: all files of a stored tree as
path → decoded content (missing blobs raise). -/
def walkTreeC (st : Store) : Nat → Oid → String → Option (List (String × String))
  | 0, _, _ => none
  | fuel + 1, treeSha, pre =>
    match readObject st treeSha with
    | some (.tree entries) => walkEntriesC st fuel entries pre
    | _ => none

def walkEntriesC (st : Store) :
    Nat → List (String × String × Oid) → String → Option (List (String × String))
  | _, [], _ => some []
  | 0, _ :: _, _ => none
  | fuel + 1, (mode, name, sha1) :: rest, pre =>
    let path := joinPath pre name
    if mode = "40000" then
      match walkTreeC st fuel sha1 path with
      | none => none
      | some sub =>
        match walkEntriesC st fuel rest pre with
        | none => none
        | some rs => some (sub ++ rs)
    else
      match readObject st sha1 with
      | some (.blob d) =>
        match walkEntriesC st fuel rest pre with
        | none => none
        | some rs => some ((path, bytesStr d) :: rs)
      | _ => none
end

/-- `_get_tree_files`: the flattened content view of a commit. -/
def getTreeFiles (st : Store) (fuel : Nat) (commitSha : Oid) :
    Option (List (String × String)) :=
  match parseCommit st commitSha with
  | none => none
  | some info => walkTreeC st fuel info.tree ""

mutual
/-- All files under one working-tree node at the given path, in
depth-first order. -/
def wtNodeFiles : String → FSNode → List (String × Bordoc.Bytes × Bool)
  | path, .file c x => [(path, c, x)]
  | path, .dir ch => wtFiles ch path

/-- All files under a working-tree fragment, as `(path, content, exec)`,
in depth-first order: the observable outcome of `rglob('*')`. -/
def wtFiles : List (String × FSNode) → String → List (String × Bordoc.Bytes × Bool)
  | [], _ => []
  | (n, node) :: t, pre => wtNodeFiles (joinPath pre n) node ++ wtFiles t pre
end

/-- The working-tree scanner: `rglob('*')` filtered by
`'.git' not in item.parts`. -/
def scanFiles (wt : List (String × FSNode)) : List (String × Bordoc.Bytes × Bool) :=
  (wtFiles wt "").filter (fun f => !((pathComponents f.1).contains ".git"))

/-- Path lookup in a working tree by components: descend through
directories, return the node found at the last component. -/
def lookupPath : List (String × FSNode) → List String → Option FSNode
  | _, [] => none
  | l, n :: rest =>
    match look l n, rest with
    | some node, [] => some node
    | some (.dir ch), _ :: _ => lookupPath ch rest
    | _, _ => none

/-- Fold `joinPath` over a component list: the path that a tree walk
started at the given prefix assigns to these components. -/
def joinAll (pre : String) (comps : List String) : String :=
  comps.foldl joinPath pre

/-- The result dict of `TrueGit.status`. -/
structure StatusResult where
  branch : String
  headCommit : Option Oid
  modified : List String
  deleted : List String
  untracked : List String
deriving DecidableEq

/-- `TrueGit.status`: partition the scanned working tree against the HEAD
tree by decoded content; without a head commit everything is untracked. -/
def status (fuel : Nat) (s : GitState) : Option StatusResult :=
  match getHeadCommit s with
  | none =>
    some { branch := s.currentBranch, headCommit := none, modified := [],
           deleted := [],
           untracked := sortByKey id ((scanFiles s.worktree).map (fun f => f.1)) }
  | some hc =>
    match getTreeFiles s.store fuel hc with
    | none => none
    | some headFiles =>
      let scanned := scanFiles s.worktree
      let isMod : String × Bordoc.Bytes × Bool → Bool := fun f =>
        match look headFiles f.1 with
        | some old => old != bytesStr f.2.1
        | none => false
      let isUntr : String × Bordoc.Bytes × Bool → Bool := fun f =>
        (look headFiles f.1).isNone
      let currentNames := scanned.map (fun f => f.1)
      some { branch := s.currentBranch, headCommit := some hc,
             modified := sortByKey id ((scanned.filter isMod).map (fun f => f.1)),
             deleted := sortByKey id
               ((headFiles.map (fun p => p.1)).filter
                 (fun n => !(currentNames.contains n))),
             untracked := sortByKey id ((scanned.filter isUntr).map (fun f => f.1)) }

/-! ### Well-formedness predicates used as hypotheses -/

/-- A usable filesystem name: nonempty and without slash. -/
def goodFSNameB (n : String) : Bool :=
  (n != "") && n.data.all (fun c => c != '/')

mutual
/-- Well-formed filesystem fragment: every name is a clean component and
sibling names are distinct (what a real directory listing satisfies). -/
def nodeWFB : FSNode → Bool
  | .file _ _ => true
  | .dir ch => listWFB ch

def listWFB : List (String × FSNode) → Bool
  | [] => true
  | (n, node) :: t =>
    goodFSNameB n && nodeWFB node && !((t.map (fun e => e.1)).contains n) && listWFB t
end

/-- Pairwise-distinct entry names, as a boolean. -/
def namesDistinctB : List (String × String × Oid) → Bool
  | [] => true
  | e :: t => !((t.map (fun x => x.2.1)).contains e.2.1) && namesDistinctB t

/-- Well-formed object: a tree has distinct, clean entry names (nonempty,
slash-free, not ".git"); other objects are unconstrained. -/
def objWFB : GObj → Bool
  | .tree es => namesDistinctB es && es.all (fun e => decide (cleanName e.2.1))
  | _ => true

/-- Every tree object in the store has entries with distinct, clean
names: the shape of trees the engine itself writes from a directory
listing. -/
def TreesWF (st : Store) : Prop := ∀ p ∈ st, objWFB p.2 = true

instance (st : Store) : Decidable (TreesWF st) := by
  unfold TreesWF; infer_instance

/-- Modes restricted to the three the engine writes. -/
def objTypedB : GObj → Bool
  | .tree es =>
    es.all (fun e => e.1 == "40000" || e.1 == "100644" || e.1 == "100755")
  | _ => true

/-- Every tree object in the store uses only modes 40000/100644/100755. -/
def TreesTyped (st : Store) : Prop := ∀ p ∈ st, objTypedB p.2 = true

instance (st : Store) : Decidable (TreesTyped st) := by
  unfold TreesTyped; infer_instance

/-- Entries sorted by plain byte-wise name order, as a boolean (each
entry name is `le` all later ones, matching `List.Pairwise`). -/
def entriesSortedB : List (String × String × Oid) → Bool
  | [] => true
  | e :: t => t.all (fun b => nameLeB e.2.1 b.2.1) && entriesSortedB t

def objSortedB : GObj → Bool
  | .tree es => entriesSortedB es
  | _ => true

/-- Every tree object in the store is sorted by plain byte-wise name
order (what the engine actually produces). -/
def TreesNameSorted (st : Store) : Prop := ∀ p ∈ st, objSortedB p.2 = true

instance (st : Store) : Decidable (TreesNameSorted st) := by
  unfold TreesNameSorted; infer_instance

/-- No tree entry named `.git`, as a boolean: the snapshot loop of
`_create_tree_from_index` skips `.git`, so the engine never writes such
an entry. -/
def objNoGitB : GObj → Bool
  | .tree es => es.all (fun e => e.2.1 != ".git")
  | _ => true

/-- Store-wide: no stored tree object has an entry named `.git`. -/
def TreesNoGit (st : Store) : Prop := ∀ p ∈ st, objNoGitB p.2 = true

instance (st : Store) : Decidable (TreesNoGit st) := by
  unfold TreesNoGit; infer_instance

/-- Git tree-entry sort key: a directory name compares as if suffixed by
`/`. -/
def gitKey (e : String × String × Oid) : String :=
  if e.1 = "40000" then e.2.1 ++ "/" else e.2.1

/-- Git's required ordering on tree entries (byte-wise on `gitKey`). -/
def gitEntriesSorted (es : List (String × String × Oid)) : Prop :=
  List.Pairwise (fun a b => nameLeB (gitKey a) (gitKey b) = true) es

instance (es : List (String × String × Oid)) : Decidable (gitEntriesSorted es) :=
  List.instDecidablePairwise es

/-- The reading of "the index equals the target tree" in the checkout
invariant: the same path set, with identical mode and oid per path. -/
def indexMatchesTree (idx : List (String × IndexEntry))
    (tf : List (String × String × Oid)) : Prop :=
  (∀ p ∈ idx, ∃ e ∈ tf, e.1 = p.1 ∧ e.2.1 = p.2.mode ∧ e.2.2 = p.2.sha) ∧
  (∀ e ∈ tf, ∃ p ∈ idx, e.1 = p.1 ∧ e.2.1 = p.2.mode ∧ e.2.2 = p.2.sha)

instance (idx : List (String × IndexEntry)) (tf : List (String × String × Oid)) :
    Decidable (indexMatchesTree idx tf) := by
  unfold indexMatchesTree; infer_instance

end TG

/-! ## Façade model (SimpleGit.py)

SimpleGit drives a dulwich repository.  The dulwich collaborators are
modelled by their documented semantics: the content-addressed object
store behaves like `TG.hashObject`/`TG.readObject`; `build_index_from_tree`
materializes a tree into the working directory and replaces the index
with the tree's entries; `commit_tree` builds a tree object from the
index.  Exception paths that the façade converts into failure envelopes
are modelled as such where a claim depends on them, and as `none`
(not taken under the claims' hypotheses) otherwise. -/

namespace SG

/-- Python `str.strip("/")`. -/
def stripSlashes (s : String) : String :=
  String.mk
    (((s.data.dropWhile (fun c => c = '/')).reverse.dropWhile
      (fun c => c = '/')).reverse)

/-- dulwich `tree[name] → (mode, sha)`. -/
def treeLook (es : List (String × String × TG.Oid)) (n : String) :
    Option (String × TG.Oid) :=
  match es with
  | [] => none
  | (m, name, oid) :: t => if n = name then some (m, oid) else treeLook t n

/-- Façade state: object store, refs keyed by full refname, the symbolic
target of HEAD, the staging index (path → blob oid), and a flat working
tree (path → bytes). -/
structure SGState where
  store : TG.Store
  refs : List (String × TG.Oid)
  headTarget : String
  index : List (String × TG.Oid)
  worktree : List (String × Bordoc.Bytes)

/-- dulwich `Repo.init` on an empty directory: empty store, no loose
refs, and a `.git/HEAD` file pointing symbolically at the unborn default
branch `refs/heads/master`. -/
def repoInit : SGState :=
  { store := [], refs := [], headTarget := "refs/heads/master", index := [],
    worktree := [] }

/-- dulwich `refs.keys()` (`DiskRefsContainer.allkeys`): `HEAD` is
included whenever the `.git/HEAD` file exists — `Repo.init` always
writes that file, even while the branch it points to is unborn — followed
by the loose refs. -/
def refsKeys (s : SGState) : List String :=
  "HEAD" :: s.refs.map (fun r => r.1)

/-- `repo.head()`: resolve the symbolic HEAD to an oid; an unborn target
raises `KeyError` (`none`). -/
def repoHead (s : SGState) : Option TG.Oid := look s.refs s.headTarget

/-- `_initial_commit`: an empty `Tree()`, a parentless commit with message
"Initial commit" by "simplegit <local>", written to the store;
`refs/heads/main` set to it and HEAD pointed at `refs/heads/main`. -/
def initialCommit (h : TG.GObj → TG.Oid) (now : Nat) (s : SGState) : SGState :=
  let p1 := TG.hashObject h s.store (.tree [])
  let cobj : TG.GObj :=
    .commit p1.1 [] "simplegit <local>" "simplegit <local>" "Initial commit" now
  let p2 := TG.hashObject h p1.2 cobj
  { s with store := p2.2, refs := upsert s.refs "refs/heads/main" p2.1,
           headTarget := "refs/heads/main" }

/-- `SimpleGit.__init__` on an empty directory.  `Repo.init` writes a
symbolic HEAD at the unborn default branch, so `refs.keys()` contains
`HEAD` and the guard `not self.repo.refs.keys()` is false:
`_initial_commit` is skipped.  The ensure-main guard then finds no
`refs/heads/main` and calls `repo.head()`, which raises `KeyError`
(`none`) because the HEAD target does not exist. -/
def sgInit (h : TG.GObj → TG.Oid) (now : Nat) : Option SGState :=
  let s := repoInit
  let s1 := if refsKeys s = [] then initialCommit h now s else s
  if (look s1.refs "refs/heads/main").isSome then some s1
  else
    match repoHead s1 with
    | none => none
    | some hd =>
      some { s1 with refs := upsert s1.refs "refs/heads/main" hd,
                     headTarget := "refs/heads/main" }

/-- `_get_head_commit`: when `refs/heads/<branch>` is missing, silently
create it at the commit `repo.head()` resolves to, then return the object
at the (possibly fresh) ref together with the updated state.  An
unresolvable HEAD or a missing object raises (`none`). -/
def getHeadCommit (s : SGState) (branch : String) :
    Option ((TG.Oid × TG.GObj) × SGState) :=
  let ref := "refs/heads/" ++ branch
  match look s.refs ref with
  | some cid =>
    match TG.readObject s.store cid with
    | some obj => some ((cid, obj), s)
    | none => none
  | none =>
    match look s.refs s.headTarget with
    | none => none
    | some base =>
      match TG.readObject s.store base with
      | some obj => some ((base, obj), { s with refs := upsert s.refs ref base })
      | none => none

/-- The descent loop of `_get_blob_content_from_commit`: any `KeyError`
yields `None`; the walk keeps descending while objects are trees; a blob
is returned only when the component equals the *last component by value*
(the source compares `p == parts[-1]`). -/
def getBlobAux (st : TG.Store) (last : String) :
    List (String × String × TG.Oid) → List String → Option Bordoc.Bytes
  | _, [] => none
  | cur, p :: rest =>
    match treeLook cur p with
    | none => none
    | some (_m, sha) =>
      match TG.readObject st sha with
      | some (.tree es) => getBlobAux st last es rest
      | some (.blob d) => if p = last then some d else none
      | some _ => none
      | none => none

/-- `_get_blob_content_from_commit` given the commit's tree oid: the
initial `repo[commit.tree]` is outside the `except KeyError` and raises
(outer `none`); the walk itself returns `some result`. -/
def getBlobContentFromCommit (st : TG.Store) (treeOid : TG.Oid)
    (filepath : String) : Option (Option Bordoc.Bytes) :=
  match TG.readObject st treeOid with
  | some (.tree es) =>
    let parts := pathComponents (stripSlashes filepath)
    some (getBlobAux st (parts.getLastD "") es parts)
  | _ => none

/-- Resolve every flattened tree entry to its blob bytes (part of the
dulwich materialization; a missing or non-blob object raises). -/
def resolveBlobs (st : TG.Store) :
    List (String × String × TG.Oid) →
      Option (List (String × TG.Oid × Bordoc.Bytes))
  | [] => some []
  | (p, _m, oid) :: rest =>
    match TG.readObject st oid with
    | some (.blob d) =>
      match resolveBlobs st rest with
      | none => none
      | some rs => some ((p, oid, d) :: rs)
    | _ => none

/-- `_build_working_tree_index` via dulwich `build_index_from_tree`: the
tree is *materialized* — every file of the tree is written over the
working directory (untracked files are left in place) — and the index is
replaced by exactly the tree's entries. -/
def buildWorkingTreeIndex (fuel : Nat) (s : SGState) (treeOid : TG.Oid) :
    Option SGState :=
  match TG.walkTree s.store fuel treeOid "" with
  | none => none
  | some tf =>
    match resolveBlobs s.store tf with
    | none => none
    | some files =>
      some { s with
        worktree := files.foldl (fun wt f => upsert wt f.1 f.2.2) s.worktree,
        index := files.map (fun f => (f.1, f.2.1)) }

/-- `_create_commit`: tree from the index via dulwich `commit_tree`
(modelled as a tree object over the sorted index entries; none of the
claims depend on its internal shape), parent = the branch tip obtained
through `_get_head_commit` (exceptions fall back to no parent), fixed
identity "simplegit <local>", branch ref advanced to the new commit. -/
def createCommit (h : TG.GObj → TG.Oid) (s : SGState)
    (message branch : String) (now : Nat) : TG.Oid × SGState :=
  let treeP := TG.hashObject h s.store
    (.tree (sortByKey (fun e => e.2.1)
      (s.index.map (fun e => ("100644", e.1, e.2)))))
  let s1 := { s with store := treeP.2 }
  let pr :=
    match getHeadCommit s1 branch with
    | some ((cid, _obj), s2) => ([cid], s2)
    | none => ([], s1)
  let cobj : TG.GObj :=
    .commit treeP.1 pr.1 "simplegit <local>" "simplegit <local>" message now
  let p2 := TG.hashObject h pr.2.store cobj
  (p2.1,
    { pr.2 with store := p2.2,
                refs := upsert pr.2.refs ("refs/heads/" ++ branch) p2.1 })

/-- The result envelope of `SimpleGit.write`. -/
structure WriteResult where
  success : Bool
  created : Bool
  commit : Option TG.Oid
  branch : String
  file : String
  message : String
  error : Option String
deriving DecidableEq

/-- `SimpleGit.write`: when the branch content already equals the new
bytes, success without commit ("No changes"); otherwise write the file,
rebuild index and working tree from the branch head (dulwich materializes
the tree, overwriting the just-written file whenever the path is
tracked), stage the on-disk bytes, and commit.  Exception paths are not
taken under the claims below and are modelled as `none`. -/
def sgWrite (h : TG.GObj → TG.Oid) (fuel : Nat) (s : SGState)
    (filepath0 content branch message : String) (now : Nat) :
    Option (WriteResult × SGState) :=
  let filepath := stripSlashes filepath0
  match getHeadCommit s branch with
  | none => none
  | some ((_cid, cobj), s1) =>
    match cobj with
    | .commit treeOid _ _ _ _ _ =>
      match getBlobContentFromCommit s1.store treeOid filepath with
      | none => none
      | some oldContent =>
        let newBytes := strBytes content
        if oldContent = some newBytes then
          some ({ success := true, created := false, commit := none,
                  branch := branch, file := filepath, message := "No changes",
                  error := none }, s1)
        else
          let s2 := { s1 with worktree := upsert s1.worktree filepath newBytes }
          match buildWorkingTreeIndex fuel s2 treeOid with
          | none => none
          | some s3 =>
            match look s3.worktree filepath with
            | none => none
            | some onDisk =>
              let pb := TG.hashObject h s3.store (.blob onDisk)
              let s4 := { s3 with store := pb.2,
                                  index := upsert s3.index filepath pb.1 }
              let cc := createCommit h s4 message branch now
              some ({ success := true, created := true, commit := some cc.1,
                      branch := branch, file := filepath, message := message,
                      error := none }, cc.2)
    | _ => none

/-- The result envelope of `SimpleGit.read`. -/
structure ReadResult where
  success : Bool
  content : Option String
  branch : String
  file : String
  commit : Option TG.Oid
  error : Option String
deriving DecidableEq

/-- `SimpleGit.read` without the explicit `commit_id` argument: resolve
the branch head (creating the ref from HEAD when absent), then look the
path up in its tree. -/
def sgRead (s : SGState) (filepath0 branch : String) :
    Option (ReadResult × SGState) :=
  let filepath := stripSlashes filepath0
  match getHeadCommit s branch with
  | none => none
  | some ((cid, cobj), s1) =>
    match cobj with
    | .commit treeOid _ _ _ _ _ =>
      match getBlobContentFromCommit s1.store treeOid filepath with
      | none => none
      | some none =>
        some ({ success := false, content := none, branch := branch,
                file := filepath, commit := none,
                error := some ("File " ++ filepath ++ " not found") }, s1)
      | some (some data) =>
        some ({ success := true, content := some (bytesStr data),
                branch := branch, file := filepath, commit := some cid,
                error := none }, s1)
    | _ => none

/-- `ref.decode().replace("refs/heads/", "")` over the refs whose name
starts with `refs/heads/`. -/
def refBranchName (r : String) : Option String :=
  if r.data.take 11 = ("refs/heads/").data then some (String.mk (r.data.drop 11))
  else none

def headsOf (refs : List (String × TG.Oid)) : List String :=
  refs.filterMap (fun r => refBranchName r.1)

/-- One ls entry. -/
structure LsEntry where
  name : String
  entryType : String
  mode : String
  sha : TG.Oid
  changedIn : List String
deriving DecidableEq

/-- The result envelope of `SimpleGit.ls`. -/
structure LsResult where
  success : Bool
  branch : String
  path : String
  entries : List LsEntry
  error : Option String
deriving DecidableEq

/-- The ls target descent: each intermediate object must exist and be a
tree (`FileNotFoundError` / `NotADirectoryError` otherwise, handled by
the outer exception handler). -/
def descendTree (st : TG.Store) :
    List (String × String × TG.Oid) → List String →
      Option (List (String × String × TG.Oid))
  | cur, [] => some cur
  | cur, p :: rest =>
    match treeLook cur p with
    | none => none
    | some (_m, sha) =>
      match TG.readObject st sha with
      | some (.tree es) => descendTree st es rest
      | _ => none

/-- The untyped descent of the per-branch comparison loop in ls
(`cur[p]` then `cur = repo[s2]`, no type checks), ending with
`cur[name]`; any failure is caught by the *inner* handler and counts as
"changed". -/
def lsInnerLook (st : TG.Store) :
    TG.GObj → List String → String → Option TG.Oid
  | .tree es, [], name => (treeLook es name).map (fun r => r.2)
  | _, [], _ => none
  | .tree es, p :: rest, name =>
    (match treeLook es p with
     | none => none
     | some (_m, s2) =>
       match TG.readObject st s2 with
       | some o2 => lsInnerLook st o2 rest name
       | none => none)
  | _, _ :: _, _ => none

/-- The `changed_in_branches` loop of ls: for every other branch, resolve
its head commit and tree (these resolutions sit outside the inner
`try`, so a failure there raises to the outer handler: `none`), then
compare the entry's sha through the untyped descent. -/
def lsChangedIn (st : TG.Store) (refs : List (String × TG.Oid))
    (branch : String) (parts : List String) (name : String) (sha : TG.Oid) :
    List String → Option (List String)
  | [] => some []
  | b :: bs =>
    if b = branch then lsChangedIn st refs branch parts name sha bs
    else
      match look refs ("refs/heads/" ++ b) with
      | none => none
      | some tip =>
        match TG.readObject st tip with
        | some (.commit t _ _ _ _ _) =>
          match TG.readObject st t with
          | some otherTreeObj =>
            let changed : Bool :=
              match lsInnerLook st otherTreeObj parts name with
              | some s2 => s2 != sha
              | none => true
            match lsChangedIn st refs branch parts name sha bs with
            | none => none
            | some rest => some (if changed then b :: rest else rest)
          | none => none
        | _ => none

/-- The entry construction loop of ls: each entry's object must resolve
(`repo[sha]`); type from the object (symlink when a blob has mode
120000). -/
def lsEntries (st : TG.Store) (refs : List (String × TG.Oid))
    (branch : String) (parts : List String) :
    List (String × String × TG.Oid) → Option (List LsEntry)
  | [] => some []
  | (mode, name, sha) :: rest =>
    match TG.readObject st sha with
    | none => none
    | some obj =>
      let ty :=
        match obj with
        | .tree _ => "directory"
        | .blob _ => if mode = "120000" then "symlink" else "file"
        | .commit _ _ _ _ _ _ => "unknown"
      match lsChangedIn st refs branch parts name sha (headsOf refs) with
      | none => none
      | some changed =>
        match lsEntries st refs branch parts rest with
        | none => none
        | some es =>
          some ({ name := name, entryType := ty, mode := mode, sha := sha,
                  changedIn := changed } :: es)

/-- `SimpleGit.ls`: resolve the branch head (creating the ref from HEAD
when absent), descend to the target path, list the entries with their
per-branch comparison.  Every exception is converted by the outer handler
into a failure envelope carrying the state mutated so far (the Python
message text is not modelled). -/
def sgLs (s : SGState) (path0 branch : String) : LsResult × SGState :=
  let path := stripSlashes path0
  let shown := if path = "" then "." else path
  match getHeadCommit s branch with
  | none =>
    ({ success := false, branch := branch, path := shown, entries := [],
       error := some "error" }, s)
  | some ((_cid, cobj), s1) =>
    match cobj with
    | .commit treeOid _ _ _ _ _ =>
      match TG.readObject s1.store treeOid with
      | some (.tree rootEs) =>
        let parts := if path = "" then [] else pathComponents path
        match descendTree s1.store rootEs parts with
        | none =>
          ({ success := false, branch := branch, path := shown, entries := [],
             error := some "error" }, s1)
        | some es =>
          match lsEntries s1.store s1.refs branch parts es with
          | none =>
            ({ success := false, branch := branch, path := shown,
               entries := [], error := some "error" }, s1)
          | some entries =>
            ({ success := true, branch := branch, path := shown,
               entries := entries, error := none }, s1)
      | _ =>
        ({ success := false, branch := branch, path := shown, entries := [],
           error := some "error" }, s1)
    | _ =>
      ({ success := false, branch := branch, path := shown, entries := [],
         error := some "error" }, s1)

/-- The result envelope of `SimpleGit.delete`. -/
structure DeleteResult where
  success : Bool
  deleted : Bool
  commit : Option TG.Oid
  branch : String
  file : String
  message : String
  error : Option String
deriving DecidableEq

/-- `SimpleGit.delete`: rebuild index and working tree from the branch
head (materializing the tree), unlink the file from the working tree if
present, then require it tracked in the freshly rebuilt index — an
untracked path yields the failure envelope "File not tracked" with the
file already unlinked and nothing committed.  Success removes the entry
and commits. -/
def sgDelete (h : TG.GObj → TG.Oid) (fuel : Nat) (s : SGState)
    (filepath0 branch message : String) (now : Nat) :
    Option (DeleteResult × SGState) :=
  let filepath := stripSlashes filepath0
  match getHeadCommit s branch with
  | none => none
  | some ((_cid, cobj), s1) =>
    match cobj with
    | .commit treeOid _ _ _ _ _ =>
      match buildWorkingTreeIndex fuel s1 treeOid with
      | none => none
      | some s2 =>
        let s3 := { s2 with worktree := removeKey s2.worktree filepath }
        if (look s3.index filepath).isSome then
          let s4 := { s3 with index := removeKey s3.index filepath }
          let cc := createCommit h s4 message branch now
          some ({ success := true, deleted := true, commit := some cc.1,
                  branch := branch, file := filepath, message := message,
                  error := none }, cc.2)
        else
          some ({ success := false, deleted := false, commit := none,
                  branch := branch, file := filepath, message := message,
                  error := some "File not tracked" }, s3)
    | _ => none

/-- One log entry of `SimpleGit.logs`. -/
structure LogItem where
  id : TG.Oid
  message : String
deriving DecidableEq

/-- The result envelope of `SimpleGit.logs`. -/
structure LogsResult where
  success : Bool
  logs : List LogItem
  branch : String
  error : Option String
deriving DecidableEq

/-- The walk of `SimpleGit.logs`: first parents, for at most
`max_entries` steps (tracked here as the remaining step budget
`max_entries - count`, which the source counts up only when continuing to
a parent); a missing object or non-commit payload raises. -/
def sgLogsAux (st : TG.Store) : Nat → TG.Oid → Option (List LogItem)
  | 0, _ => some []
  | remaining + 1, cid =>
    match TG.readObject st cid with
    | some (.commit _t ps _a _c m _d) =>
      match ps with
      | [] => some [⟨cid, m⟩]
      | p :: _ =>
        match sgLogsAux st remaining p with
        | none => none
        | some rest => some (⟨cid, m⟩ :: rest)
    | _ => none

/-- `SimpleGit.logs`: an absent branch yields an empty success; an
exception during the walk yields a failure envelope (message text not
modelled). -/
def sgLogs (s : SGState) (branch : String) (maxEntries : Nat) : LogsResult :=
  match look s.refs ("refs/heads/" ++ branch) with
  | none => { success := true, logs := [], branch := branch, error := none }
  | some cid =>
    match sgLogsAux s.store maxEntries cid with
    | none => { success := false, logs := [], branch := branch,
                error := some "error" }
    | some items => { success := true, logs := items, branch := branch,
                      error := none }

/-- The result envelope of `SimpleGit.branches`. -/
structure BranchesResult where
  success : Bool
  branches : List String
  error : Option String
deriving DecidableEq

/-- `SimpleGit.branches`: the refs under `refs/heads/`. -/
def sgBranches (s : SGState) : BranchesResult :=
  { success := true, branches := headsOf s.refs, error := none }

end SG

/-! ## Concrete data for witnesses and counterexamples -/

/-- A concrete injective digest on structural objects: the collision-free
stand-in for SHA-1 used to discharge injectivity hypotheses at concrete
inputs. -/
def encGObj : TG.GObj → TG.Oid
  | .blob d => Nat.pair 0 (encN d)
  | .tree es =>
    Nat.pair 1
      (encN (es.map (fun e => Nat.pair (encStr e.1) (Nat.pair (encStr e.2.1) e.2.2))))
  | .commit t ps a c m d =>
    Nat.pair 2
      (Nat.pair t (Nat.pair (encN ps)
        (Nat.pair (encStr a) (Nat.pair (encStr c) (Nat.pair (encStr m) d)))))

/-- C4 scenario: a directory `foo` next to a file `foo.txt`.  Plain name
order puts `foo` first; Git order requires `foo.txt` before `foo/`. -/
def wtC4 : List (String × TG.FSNode) :=
  [("foo", .dir [("b.txt", .file [49] false)]), ("foo.txt", .file [50] false)]

/-- The tree entries the engine writes for `wtC4`. -/
def c4entries : List (String × String × TG.Oid) :=
  [("40000", "foo", encGObj (.tree [("100644", "b.txt", encGObj (.blob [49]))])),
   ("100644", "foo.txt", encGObj (.blob [50]))]

/-- C8 scenario: a repository whose tip commit (oid 9) references a
parent (oid 77) that is missing from the object store. -/
def s8 : TG.GitState :=
  { worktree := [],
    store := [(5, .tree []), (9, .commit 5 [77] "A" "A" "m2" 1)],
    refs := [("main", 9)], head := "ref: refs/heads/main",
    currentBranch := "main", index := [] }

/-- C3 scenario: a working tree with a file sorting before a
subdirectory. -/
def s3wt : List (String × TG.FSNode) :=
  [("a.txt", .file [49] false), ("sub", .dir [("b.txt", .file [50] false)])]

def s3 : TG.GitState :=
  { worktree := s3wt, store := [], refs := [], head := "ref: refs/heads/main",
    currentBranch := "main", index := [] }

/-- The root tree oid TrueGit.commit writes for `s3wt`. -/
def c3treeOid : TG.Oid :=
  encGObj (.tree
    [("100644", "a.txt", encGObj (.blob [49])),
     ("40000", "sub",
       encGObj (.tree [("100644", "b.txt", encGObj (.blob [50]))]))])

/-- C9 scenario: a façade repository whose head commit has the empty
tree, with an untracked file `u.txt` in the working tree. -/
def s9 : SG.SGState :=
  { store := [(2, .tree []), (9, .commit 2 [] "A" "A" "init" 0)],
    refs := [("refs/heads/main", 9)], headTarget := "refs/heads/main",
    index := [], worktree := [("u.txt", [51])] }

/-- C10 scenario: a façade repository tracking `p.txt` = "a" on `main`,
with no other branch. -/
def s10 : SG.SGState :=
  { store := [(3, .blob [97]), (2, .tree [("100644", "p.txt", 3)]),
              (9, .commit 2 [] "A" "A" "init" 0)],
    refs := [("refs/heads/main", 9)], headTarget := "refs/heads/main",
    index := [], worktree := [] }

/-- C6 scenario: a digest-consistent repository tracking `p.txt` = "a"
on `main`, with the file present on disk. -/
def c6blobOid : TG.Oid := encGObj (.blob [97])

def c6treeObj : TG.GObj := .tree [("100644", "p.txt", c6blobOid)]

def c6treeOid : TG.Oid := encGObj c6treeObj

def c6commitObj : TG.GObj := .commit c6treeOid [] "A" "A" "init" 0

def c6commitOid : TG.Oid := encGObj c6commitObj

def s6c : SG.SGState :=
  { store := [(c6blobOid, .blob [97]), (c6treeOid, c6treeObj),
              (c6commitOid, c6commitObj)],
    refs := [("refs/heads/main", c6commitOid)], headTarget := "refs/heads/main",
    index := [], worktree := [("p.txt", [97])] }

/-- C1 scenario: two branches tracking `f.txt` with different blobs; the
index matches the tree of `main`, the checked-out branch. -/
def s1c : TG.GitState :=
  { worktree := [(".git", .dir []), ("f.txt", .file [97] false)],
    store := [(1, .blob [97]), (2, .blob [98]),
              (4, .tree [("100644", "f.txt", 1)]),
              (5, .tree [("100644", "f.txt", 2)]),
              (8, .commit 4 [] "A" "A" "c1" 1),
              (9, .commit 5 [8] "A" "A" "c2" 2)],
    refs := [("main", 8), ("b", 9)], head := "ref: refs/heads/main",
    currentBranch := "main", index := [("f.txt", ⟨1, "100644"⟩)] }

/-- The state `TrueGit.switch` produces from `s1c` for branch `b`. -/
def s1cAfter : TG.GitState :=
  { s1c with currentBranch := "b", head := "ref: refs/heads/b",
             worktree := [(".git", .dir []), ("f.txt", .file [98] false)] }

/-- C7 scenario: a repository with a `.git` directory and a working file,
whose head commit tracks a different file. -/
def s7 : TG.GitState :=
  { worktree := [(".git", .dir []), ("a.txt", .file [49] false)],
    store := [(9, .commit 5 [] "A" "A" "m" 1),
              (5, .tree [("100644", "b.txt", 3)]), (3, .blob [50])],
    refs := [("main", 9)], head := "ref: refs/heads/main",
    currentBranch := "main", index := [] }

/-- The state `TrueGit.switch` produces from `s7` for branch `main`. -/
def s7After : TG.GitState :=
  { s7 with currentBranch := "main", head := "ref: refs/heads/main",
            worktree := [(".git", .dir []), ("b.txt", .file [50] false)] }

def c7blobOid : TG.Oid := encGObj (.blob [49])

def c7treeObj : TG.GObj := .tree [("100644", "a.txt", c7blobOid)]

def c7treeOid : TG.Oid := encGObj c7treeObj

def c7commitObj : TG.GObj := .commit c7treeOid [9] "A" "A" "m" 1

def c7cid : TG.Oid := encGObj c7commitObj

/-- The state `TrueGit.commit` produces from `s7`. -/
def s7c : TG.GitState :=
  { s7 with
      store := (c7cid, c7commitObj) :: (c7treeOid, c7treeObj) ::
               (c7blobOid, .blob [49]) :: s7.store,
      refs := [("main", c7cid)],
      index := [("a.txt", ⟨c7blobOid, "100644"⟩)] }

/-- The status result for `s7`. -/
def s7res : TG.StatusResult :=
  { branch := "main", headCommit := some 9, modified := [],
    deleted := ["b.txt"], untracked := ["a.txt"] }

end Bordoc

namespace Bordoc

/-! ## Theorems: helper lemmas -/

theorem natDigits_range (n : Nat) : ∀ d ∈ natDigits n, 48 ≤ d ∧ d ≤ 57 := by
  induction n using Nat.strong_induction_on with
  | _ n ih =>
    intro d hd
    rw [natDigits] at hd
    by_cases h : n < 10
    · simp [h] at hd; omega
    · simp [h] at hd
      rcases hd with hd | hd
      · exact ih (n / 10) (Nat.div_lt_self (by omega) (by omega)) d hd
      · omega

theorem breakAtZero_append (pre post : Bytes) (hpre : ∀ b ∈ pre, b ≠ 0) :
    breakAtZero (pre ++ 0 :: post) = some (pre, post) := by
  induction pre with
  | nil => simp [breakAtZero]
  | cons b t ih =>
    have hb : b ≠ 0 := hpre b (by simp)
    have ht : ∀ x ∈ t, x ≠ 0 := fun x hx => hpre x (by simp [hx])
    simp [breakAtZero, hb, ih ht]

theorem splitWordsAux_no_space (acc w : Bytes) (hw : ∀ b ∈ w, b ≠ 32)
    (hne : ¬(acc.isEmpty ∧ w.isEmpty)) :
    splitWordsAux acc w = [acc.reverse ++ w] := by
  induction w generalizing acc with
  | nil =>
    simp at hne
    simp [splitWordsAux, hne]
  | cons b t ih =>
    have hb : b ≠ 32 := hw b (by simp)
    have ht : ∀ x ∈ t, x ≠ 32 := fun x hx => hw x (by simp [hx])
    simp [splitWordsAux, hb, ih (b :: acc) ht (by simp)]

theorem splitWords_single (w : Bytes) (hw : ∀ b ∈ w, b ≠ 32) (hne : w ≠ []) :
    splitWords w = [w] := by
  have := splitWordsAux_no_space [] w hw (by simp [hne])
  simpa [splitWords] using this

theorem bytesLeB_total (s t : Bytes) : bytesLeB s t = true ∨ bytesLeB t s = true := by
  induction s generalizing t with
  | nil => left; simp [bytesLeB]
  | cons a s ih =>
    cases t with
    | nil => right; simp [bytesLeB]
    | cons b t =>
      rcases Nat.lt_trichotomy a b with h | h | h
      · left; simp [bytesLeB, h]
      · subst h
        rcases ih t with ht | ht
        · left; simpa [bytesLeB] using ht
        · right; simpa [bytesLeB] using ht
      · right; simp [bytesLeB, h]

theorem bytesLeB_trans {s t u : Bytes} (h1 : bytesLeB s t = true)
    (h2 : bytesLeB t u = true) : bytesLeB s u = true := by
  induction s generalizing t u with
  | nil => simp [bytesLeB]
  | cons a s ih =>
    cases t with
    | nil => simp [bytesLeB] at h1
    | cons b t =>
      cases u with
      | nil => simp [bytesLeB] at h2
      | cons c u =>
        simp only [bytesLeB] at h1 h2 ⊢
        split at h1
        · rename_i hab
          split at h2
          · rename_i hbc
            simp [show a < c by omega]
          · split at h2
            · exact absurd h2 (by simp)
            · rename_i hcb hbc
              have hbc' : b = c := by omega
              subst hbc'
              simp [hab]
        · split at h1
          · exact absurd h1 (by simp)
          · rename_i hab hba
            have hab' : a = b := by omega
            subst hab'
            split at h2
            · rename_i hac
              simp [hac]
            · split at h2
              · exact absurd h2 (by simp)
              · rename_i hac hca
                have : a = c := by omega
                subst this
                simp only [Nat.lt_irrefl, if_false]
                exact ih h1 h2

theorem insertByKey_perm (key : α → String) (x : α) (l : List α) :
    List.Perm (insertByKey key x l) (x :: l) := by
  induction l with
  | nil => simp [insertByKey]
  | cons y t ih =>
    simp only [insertByKey]
    split
    · exact List.Perm.refl _
    · exact List.Perm.trans (List.Perm.cons y ih) (List.Perm.swap x y t)

theorem sortByKey_perm (key : α → String) (l : List α) :
    List.Perm (sortByKey key l) l := by
  induction l with
  | nil => simp [sortByKey]
  | cons x t ih =>
    exact List.Perm.trans (insertByKey_perm key x (sortByKey key t)) (List.Perm.cons x ih)

theorem insertByKey_sorted (key : α → String) (x : α) (l : List α)
    (hl : List.Pairwise (fun a b => nameLeB (key a) (key b) = true) l) :
    List.Pairwise (fun a b => nameLeB (key a) (key b) = true) (insertByKey key x l) := by
  induction l with
  | nil => simp [insertByKey]
  | cons y t ih =>
    rcases List.pairwise_cons.mp hl with ⟨hy, ht⟩
    simp only [insertByKey]
    split
    · rename_i hxy
      refine List.pairwise_cons.mpr ⟨?_, hl⟩
      intro b hb
      rcases List.mem_cons.mp hb with hb | hb
      · subst hb; exact hxy
      · exact bytesLeB_trans hxy (hy b hb)
    · rename_i hxy
      have hyx : nameLeB (key y) (key x) = true := by
        rcases bytesLeB_total (strBytes (key x)) (strBytes (key y)) with h | h
        · exact absurd h hxy
        · exact h
      refine List.pairwise_cons.mpr ⟨?_, ih ht⟩
      intro b hb
      have hb' := (insertByKey_perm key x t).mem_iff.mp hb
      rcases List.mem_cons.mp hb' with hb' | hb'
      · subst hb'; exact hyx
      · exact hy b hb'

theorem sortByKey_sorted (key : α → String) (l : List α) :
    List.Pairwise (fun a b => nameLeB (key a) (key b) = true) (sortByKey key l) := by
  induction l with
  | nil => simp [sortByKey]
  | cons x t ih => exact insertByKey_sorted key x (sortByKey key t) ih

theorem splitSlashes_ne_nil (l : List Char) : splitSlashes l ≠ [] := by
  cases l with
  | nil => simp [splitSlashes]
  | cons c t =>
    simp only [splitSlashes]
    split
    · simp
    · split <;> simp

theorem splitSlashes_append (xs ys : List Char) :
    splitSlashes (xs ++ '/' :: ys) = splitSlashes xs ++ splitSlashes ys := by
  induction xs with
  | nil => simp [splitSlashes]
  | cons c t ih =>
    by_cases hc : c = '/'
    · subst hc; simp [splitSlashes, ih]
    · simp only [List.cons_append, splitSlashes, hc, if_false]
      rcases h : splitSlashes t with _ | ⟨h1, r⟩
      · exact absurd h (splitSlashes_ne_nil t)
      · simp only [List.append_eq]
        rw [ih, h]
        simp

theorem splitSlashes_no_slash (l : List Char) (h : ∀ c ∈ l, c ≠ '/') :
    splitSlashes l = [l] := by
  induction l with
  | nil => simp [splitSlashes]
  | cons c t ih =>
    have hc : c ≠ '/' := h c (by simp)
    have ht : ∀ x ∈ t, x ≠ '/' := fun x hx => h x (by simp [hx])
    simp [splitSlashes, hc, ih ht]

theorem pathComponents_join (pre n : String) (hn : ∀ c ∈ n.data, c ≠ '/') :
    pathComponents (joinPath pre n) =
      if pre = "" then [n] else pathComponents pre ++ [n] := by
  unfold joinPath pathComponents
  split
  · simp [splitSlashes_no_slash n.data hn]
  · have : (pre ++ "/" ++ n).data = pre.data ++ '/' :: n.data := by
      simp [String.data_append]
    rw [this, splitSlashes_append, splitSlashes_no_slash n.data hn]
    simp

theorem look_upsert_self [DecidableEq σ] (l : List (σ × α)) (k : σ) (v : α) :
    look (upsert l k v) k = some v := by
  induction l with
  | nil => simp [upsert, look]
  | cons p t ih =>
    obtain ⟨k0, v0⟩ := p
    by_cases h : k = k0
    · simp [upsert, look, h]
    · simp [upsert, look, h, ih]

theorem look_upsert_other [DecidableEq σ] (l : List (σ × α)) (k q : σ) (v : α)
    (h : q ≠ k) : look (upsert l k v) q = look l q := by
  induction l with
  | nil => simp [upsert, look, h]
  | cons p t ih =>
    obtain ⟨k0, v0⟩ := p
    by_cases hk : k = k0
    · subst hk; simp [upsert, look, h]
    · by_cases hq : q = k0
      · simp [upsert, look, hk, hq]
      · simp [upsert, look, hk, hq, ih]

theorem look_mem [DecidableEq σ] {l : List (σ × α)} {k : σ} {v : α}
    (h : look l k = some v) : (k, v) ∈ l := by
  induction l with
  | nil => simp [look] at h
  | cons p t ih =>
    obtain ⟨k0, v0⟩ := p
    by_cases hk : k = k0
    · subst hk
      simp [look] at h
      simp [h]
    · simp [look, hk] at h
      simp [ih h]

theorem encN_injective : Function.Injective encN := by
  intro s t h
  induction s generalizing t with
  | nil =>
    cases t with
    | nil => rfl
    | cons b u => simp [encN] at h
  | cons a s ih =>
    cases t with
    | nil => simp [encN] at h
    | cons b u =>
      simp only [encN, Nat.add_right_cancel_iff] at h
      rcases Nat.pair_eq_pair.mp h with ⟨h1, h2⟩
      rw [h1, ih h2]

theorem Char_toNat_injective : Function.Injective Char.toNat := by
  intro c d h
  have hc := Char.ofNat_toNat c
  have hd := Char.ofNat_toNat d
  rw [← hc, ← hd, h]

theorem encChars_injective : Function.Injective encChars := by
  intro s t h
  induction s generalizing t with
  | nil =>
    cases t with
    | nil => rfl
    | cons b u =>
      simp only [encChars] at h
      omega
  | cons a s ih =>
    cases t with
    | nil =>
      simp only [encChars] at h
      omega
    | cons b u =>
      simp only [encChars] at h
      have ha : a.toNat < 4294967296 := by
        have := UInt32.toNat_lt a.val
        simpa [Char.toNat] using this
      have hb : b.toNat < 4294967296 := by
        have := UInt32.toNat_lt b.val
        simpa [Char.toNat] using this
      have h1 : a.toNat = b.toNat := by omega
      have h2 : encChars s = encChars u := by omega
      rw [Char_toNat_injective h1, ih h2]

theorem encStr_injective : Function.Injective encStr := by
  intro s t h
  exact String.ext (encChars_injective h)

theorem look_eq_none [DecidableEq σ] {l : List (σ × α)} {k : σ} :
    look l k = none ↔ ∀ p ∈ l, p.1 ≠ k := by
  induction l with
  | nil => simp [look]
  | cons p t ih =>
    obtain ⟨k0, v0⟩ := p
    by_cases h : k = k0
    · subst h; simp [look]
    · simp [look, h, ih, Ne.symm h]

theorem splitWordsAux_word (w : Bytes) (hw : ∀ b ∈ w, b ≠ 32) :
    ∀ acc rest, acc.reverse ++ w ≠ [] →
      splitWordsAux acc (w ++ 32 :: rest) = (acc.reverse ++ w) :: splitWords rest := by
  induction w with
  | nil =>
    intro acc rest hne
    have hacc : ¬acc.isEmpty := by
      cases acc with
      | nil => simp at hne
      | cons a t => simp
    simp [splitWordsAux, hacc, splitWords]
  | cons b t ih =>
    intro acc rest _hne
    have hb : b ≠ 32 := hw b (by simp)
    have ht : ∀ x ∈ t, x ≠ 32 := fun x hx => hw x (by simp [hx])
    have := ih ht (b :: acc) rest (by simp)
    simp only [List.cons_append, splitWordsAux, hb, if_false, List.append_eq]
    rw [this]
    simp

theorem splitWords_word (w rest : Bytes) (hw : ∀ b ∈ w, b ≠ 32) (hne : w ≠ []) :
    splitWords (w ++ 32 :: rest) = w :: splitWords rest := by
  have := splitWordsAux_word w hw [] rest (by simpa using hne)
  simpa [splitWords] using this

/-! ## C2: byte-level object-store round trip -/

namespace ObjStore

theorem frame_assoc (ty : String) (data : Bytes) :
    frame ty data = (strBytes ty ++ 32 :: natDigits data.length) ++ 0 :: data := by
  simp [frame]

/-- Reading any store location that holds the frame of `(ty, data)` for
one of the three writable types yields `(ty, data)` back. -/
theorem read_frame (ty : String)
    (hty : ty = "blob" ∨ ty = "tree" ∨ ty = "commit") (data : Bytes)
    (st : Store) (sha1 : Nat) (hlook : look st sha1 = some (frame ty data)) :
    readObject st sha1 = some (ty, data) := by
  have h32 : ∀ b ∈ strBytes ty, b ≠ 32 := by
    rcases hty with h | h | h <;> subst h <;> decide
  have h0 : ∀ b ∈ strBytes ty, b ≠ 0 := by
    rcases hty with h | h | h <;> subst h <;> decide
  have hne : strBytes ty ≠ [] := by
    rcases hty with h | h | h <;> subst h <;> decide
  have hdec : bytesStr (strBytes ty) = ty := by
    rcases hty with h | h | h <;> subst h <;> decide
  have hpre : ∀ b ∈ strBytes ty ++ 32 :: natDigits data.length, b ≠ 0 := by
    intro b hb
    rcases List.mem_append.mp hb with hb | hb
    · exact h0 b hb
    · rcases List.mem_cons.mp hb with hb | hb
      · omega
      · have := natDigits_range data.length b hb
        omega

  have hbreak :
      breakAtZero (frame ty data) =
        some (strBytes ty ++ 32 :: natDigits data.length, data) := by
    rw [frame_assoc]
    exact breakAtZero_append _ _ hpre
  have hsplit :
      splitWords (strBytes ty ++ 32 :: natDigits data.length) =
        strBytes ty :: splitWords (natDigits data.length) :=
    splitWords_word _ _ h32 hne
  simp [readObject, hlook, hbreak, hsplit, hdec]

/-- C2: for every writable type T and byte sequence B, reading the object
just written round-trips — `get(put(T, B)) = (T, B)` — provided the digest
is collision-free and the store consistent; and put is idempotent: the
second put returns the identical oid and leaves the store unchanged, and
exactly one store entry carries that oid. -/
theorem c2_put_get_roundtrip (h : Bytes → Nat) (hinj : Function.Injective h)
    (st : Store) (hcons : Consistent h st)
    (hnd : (st.map (fun p => p.1)).Nodup)
    (ty : String) (hty : ty = "blob" ∨ ty = "tree" ∨ ty = "commit")
    (data : Bytes) :
    readObject (hashObject h st ty data).2 (hashObject h st ty data).1 =
        some (ty, data) ∧
    hashObject h (hashObject h st ty data).2 ty data = hashObject h st ty data ∧
    ((hashObject h st ty data).2.map (fun p => p.1)).count
        (hashObject h st ty data).1 = 1 := by
  set stored := frame ty data with hstored
  set oid := h stored with hoid
  rcases hl : look st oid with _ | v
  · -- the object file does not exist yet: it is written
    have hst2 : (hashObject h st ty data).2 = (oid, stored) :: st := by
      simp [hashObject, hl, ← hstored, ← hoid]
    have hfst : (hashObject h st ty data).1 = oid := by
      simp [hashObject, ← hstored, ← hoid]
    have hlook2 : look ((oid, stored) :: st) oid = some stored := by
      simp [look]
    refine ⟨?_, ?_, ?_⟩
    · rw [hst2, hfst]
      exact read_frame ty hty data _ oid hlook2
    · rw [hst2]
      simp [hashObject, hl, hlook2, ← hstored, ← hoid]
    · rw [hst2, hfst]
      have hnotmem : oid ∉ st.map (fun p => p.1) := by
        intro hmem
        rcases List.mem_map.mp hmem with ⟨p, hp, hpk⟩
        exact (look_eq_none.mp hl p hp) hpk
      simp [List.count_cons, List.count_eq_zero.mpr hnotmem]
  · -- the object file already exists: by consistency and injectivity its
    -- content is the same frame, and nothing is written
    have hv : v = stored := by
      have hmem := look_mem hl
      have := hcons _ hmem
      exact hinj (by simpa using this.symm)
    have hst2 : (hashObject h st ty data).2 = st := by
      simp [hashObject, hl, ← hstored, ← hoid]
    have hfst : (hashObject h st ty data).1 = oid := by
      simp [hashObject, ← hstored, ← hoid]
    refine ⟨?_, ?_, ?_⟩
    · rw [hst2, hfst]
      exact read_frame ty hty data _ oid (by rw [hl, hv])
    · rw [hst2]
    · rw [hst2, hfst]
      have hmem : oid ∈ st.map (fun p => p.1) := by
        exact List.mem_map.mpr ⟨(oid, v), look_mem hl, rfl⟩
      exact List.count_eq_one_of_mem hnd hmem

/-- Witness for C2 at a concrete input: the injective digest `encN`, the
empty store, type blob, content `[1, 2, 3]`. -/
theorem c2_witness :
    readObject (hashObject encN [] "blob" [1, 2, 3]).2
        (hashObject encN [] "blob" [1, 2, 3]).1 = some ("blob", [1, 2, 3]) ∧
    hashObject encN (hashObject encN [] "blob" [1, 2, 3]).2 "blob" [1, 2, 3] =
        hashObject encN [] "blob" [1, 2, 3] ∧
    (((hashObject encN [] "blob" [1, 2, 3]).2).map (fun p => p.1)).count
        (hashObject encN [] "blob" [1, 2, 3]).1 = 1 :=
  c2_put_get_roundtrip encN encN_injective [] (by decide) (by decide)
    "blob" (Or.inl rfl) [1, 2, 3]

end ObjStore

theorem encGObj_injective : Function.Injective encGObj := by
  intro o1 o2 h
  cases o1 <;> cases o2 <;> simp only [encGObj] at h <;>
    first
    | (exfalso; rcases Nat.pair_eq_pair.mp h with ⟨h1, _⟩; omega)
    | skip
  · rename_i d1 d2
    rcases Nat.pair_eq_pair.mp h with ⟨_, h2⟩
    rw [encN_injective h2]
  · rename_i es1 es2
    rcases Nat.pair_eq_pair.mp h with ⟨_, h2⟩
    have hmap := encN_injective h2
    have hinj : Function.Injective
        (fun e : String × String × TG.Oid =>
          Nat.pair (encStr e.1) (Nat.pair (encStr e.2.1) e.2.2)) := by
      intro a b hab
      rcases Nat.pair_eq_pair.mp hab with ⟨ha, hrest⟩
      rcases Nat.pair_eq_pair.mp hrest with ⟨hb, hc⟩
      have h1 := encStr_injective ha
      have h2 := encStr_injective hb
      obtain ⟨a1, a2, a3⟩ := a
      obtain ⟨b1, b2, b3⟩ := b
      simp_all
    rw [List.map_injective_iff.mpr hinj hmap]
  · rename_i t1 p1 a1 c1 m1 d1 t2 p2 a2 c2 m2 d2
    rcases Nat.pair_eq_pair.mp h with ⟨_, h2⟩
    rcases Nat.pair_eq_pair.mp h2 with ⟨ht, h3⟩
    rcases Nat.pair_eq_pair.mp h3 with ⟨hp, h4⟩
    rcases Nat.pair_eq_pair.mp h4 with ⟨ha, h5⟩
    rcases Nat.pair_eq_pair.mp h5 with ⟨hc, h6⟩
    rcases Nat.pair_eq_pair.mp h6 with ⟨hm, hd⟩
    rw [ht, encN_injective hp, encStr_injective ha, encStr_injective hc,
      encStr_injective hm, hd]

/-! ## C4: tree-entry ordering -/

namespace TG

theorem entriesSortedB_iff (es : List (String × String × Oid)) :
    entriesSortedB es = true ↔
      List.Pairwise (fun a b : String × String × Oid => nameLeB a.2.1 b.2.1 = true) es := by
  induction es with
  | nil => simp [entriesSortedB]
  | cons e t ih =>
    simp [entriesSortedB, ih, List.pairwise_cons, List.all_eq_true]

/-- Inserting an object whose tree payload is name-sorted preserves the
store-wide sortedness invariant. -/
theorem TreesNameSorted_insert (h : GObj → Oid) (st : Store) (o : GObj)
    (hs : TreesNameSorted st) (ho : objSortedB o = true) :
    TreesNameSorted (hashObject h st o).2 := by
  have hdef : (hashObject h st o).2 =
      if (look st (h o)).isSome then st else (h o, o) :: st := rfl
  rw [hdef]
  split
  · exact hs
  · intro p hp
    rcases List.mem_cons.mp hp with hp | hp
    · rw [hp]; exact ho
    · exact hs p hp

/-- A list of tree entries whose name image is a name-sorted list is
itself pairwise name-sorted. -/
theorem entries_sorted_of_names (es : List (String × String × Oid))
    (ns : List String) (hns : es.map (fun e => e.2.1) = ns)
    (hsorted : List.Pairwise (fun a b : String => nameLeB a b = true) ns) :
    List.Pairwise (fun a b : String × String × Oid => nameLeB a.2.1 b.2.1 = true) es := by
  subst hns
  exact (List.pairwise_map).mp hsorted

/-- Joint preservation statement for the snapshot recursion: `createObj`
and `createList` preserve store-wide name-sortedness, and the entry names
produced by `createList` are exactly the non-`.git` input names in
order. -/
theorem createObjList_sorted (h : GObj → Oid) : ∀ fuel,
    (∀ node st mode oid st2, TreesNameSorted st →
      createObj h fuel node st = some (mode, oid, st2) → TreesNameSorted st2) ∧
    (∀ l st es st2, TreesNameSorted st →
      createList h fuel l st = some (es, st2) →
      TreesNameSorted st2 ∧
      es.map (fun e => e.2.1) =
        (l.filter (fun p => p.1 != ".git")).map (fun p => p.1)) := by
  intro fuel
  induction fuel with
  | zero =>
    constructor
    · intro node st mode oid st2 hs hc
      cases node with
      | file c x =>
        simp only [createObj, Prod.mk.injEq, Option.some_inj] at hc
        obtain ⟨_, _, hst⟩ := hc
        rw [← hst]
        exact TreesNameSorted_insert h st _ hs (by simp [objSortedB])
      | dir ch => simp [createObj] at hc
    · intro l st es st2 hs hc
      cases l with
      | nil =>
        simp only [createList, Prod.mk.injEq, Option.some_inj] at hc
        obtain ⟨he, hst⟩ := hc
        exact ⟨hst ▸ hs, by simp [← he]⟩
      | cons p t => simp [createList] at hc
  | succ n ihn =>
    obtain ⟨ihP, ihQ⟩ := ihn
    constructor
    · intro node st mode oid st2 hs hc
      cases node with
      | file c x =>
        simp only [createObj, Prod.mk.injEq, Option.some_inj] at hc
        obtain ⟨_, _, hst⟩ := hc
        rw [← hst]
        exact TreesNameSorted_insert h st _ hs (by simp [objSortedB])
      | dir ch =>
        simp only [createObj] at hc
        rcases hl : createList h n (sortByKey (fun e => e.1) ch) st with _ | ⟨es, st1⟩
        · rw [hl] at hc; simp at hc
        · simp only [hl, Prod.mk.injEq, Option.some_inj] at hc
          obtain ⟨_, _, hst2⟩ := hc
          rcases ihQ (sortByKey (fun e => e.1) ch) st es st1 hs hl with ⟨h1, h2⟩
          have hes := entries_sorted_of_names es _ h2
            ((List.pairwise_map).mpr
              ((sortByKey_sorted (fun e : String × FSNode => e.1) ch).sublist
                (List.filter_sublist _)))
          rw [← hst2]
          exact TreesNameSorted_insert h st1 _ h1
            (by simp [objSortedB, (entriesSortedB_iff es).mpr hes])
    · intro l st es st2 hs hc
      cases l with
      | nil =>
        simp only [createList, Prod.mk.injEq, Option.some_inj] at hc
        obtain ⟨he, hst⟩ := hc
        exact ⟨hst ▸ hs, by simp [← he]⟩
      | cons p t =>
        obtain ⟨name, node⟩ := p
        by_cases hg : name = ".git"
        · subst hg
          have hc' : createList h n t st = some (es, st2) := by
            simpa [createList] using hc
          rcases ihQ t st es st2 hs hc' with ⟨h1, h2⟩
          exact ⟨h1, by simp [h2, List.filter_cons]⟩
        · simp only [createList, hg, if_false] at hc
          rcases ho : createObj h n node st with _ | ⟨mode, oid, st1⟩
          · rw [ho] at hc; simp at hc
          · rcases hl : createList h n t st1 with _ | ⟨es', st2'⟩
            · simp [ho, hl] at hc
            · simp [ho, hl] at hc
              obtain ⟨he, hst⟩ := hc
              have hst1 := ihP node st mode oid st1 hs ho
              rcases ihQ t st1 es' st2' hst1 hl with ⟨h1, h2⟩
              subst hst
              refine ⟨h1, ?_⟩
              rw [← he]
              simp [List.filter_cons, hg, h2]

/-- C4 (amended): every tree object the engine writes while snapshotting
a working tree has its entries sorted by plain byte-wise name order — not
by Git's ordering, which compares a directory name as if suffixed by
`/`. -/
theorem c4_amended (h : GObj → Oid) (fuel : Nat)
    (wt : List (String × FSNode)) (st : Store) (hsorted : TreesNameSorted st)
    (r : Oid × Store) (hr : createTreeFromIndex h fuel wt st = some r) :
    TreesNameSorted r.2 := by
  unfold createTreeFromIndex at hr
  rcases hl : createList h fuel (sortByKey (fun e => e.1) wt) st with _ | ⟨es, st1⟩
  · rw [hl] at hr; simp at hr
  · rw [hl] at hr
    simp only [Option.some_inj] at hr
    rcases (createObjList_sorted h fuel).2
        (sortByKey (fun e => e.1) wt) st es st1 hsorted hl with ⟨h1, h2⟩
    have hes := entries_sorted_of_names es _ h2
      ((List.pairwise_map).mpr
        ((sortByKey_sorted (fun e : String × FSNode => e.1) wt).sublist
          (List.filter_sublist _)))
    rw [← hr]
    exact TreesNameSorted_insert h st1 _ h1
      (by simp [objSortedB, (entriesSortedB_iff es).mpr hes])

end TG

/-- C4 counterexample: snapshotting `wtC4` writes a root tree whose
entries are `[directory foo, file foo.txt]` — the plain sort order — which
violates Git's ordering (`foo.txt` compares before `foo/`). -/
theorem c4_counterexample :
    (TG.createTreeFromIndex encGObj 10 wtC4 []).map
        (fun r => TG.readObject r.2 r.1) = some (some (.tree c4entries)) ∧
    ¬ TG.gitEntriesSorted c4entries := by
  decide

/-- Witness for the amended C4 at a concrete input. -/
theorem c4_witness :
    TG.TreesNameSorted ((TG.createTreeFromIndex encGObj 10 wtC4 []).getD (0, [])).2 :=
  TG.c4_amended encGObj 10 wtC4 [] (by decide) _ (by rfl)

/-! ## C8: history walk over a broken chain -/

/-- C8 counterexample: on `s8` — whose tip commit names the missing
parent 77 — `TrueGit.log` returns the single parsed commit as an ordinary
list with no error indication of any kind, silently recovering with a
truncated history (the result cannot even carry an error: its type is a
plain list of commit dictionaries). -/
theorem c8_counterexample :
    TG.log 10 s8 none = [⟨9, 5, [77], "A", "A", "m2", 1⟩] ∧
    TG.readObject s8.store 77 = none := by decide

/-- C8 (amended): the engine-level history walk recovers silently: when
the tip commit parses but its parent object is missing, `TrueGit.log`
returns exactly the one tip entry — indistinguishable from an intact
single-commit history — instead of surfacing a structured error.  (The
façade-level `SimpleGit.logs` does wrap its walk into a failure
envelope.) -/
theorem c8_amended (fuel : Nat) (s : TG.GitState) (tip p : TG.Oid)
    (htip : TG.getHeadCommit s = some tip)
    (info : TG.CommitInfo) (hparse : TG.parseCommit s.store tip = some info)
    (hp : info.parents = [p]) (hmiss : TG.readObject s.store p = none) :
    TG.log (fuel + 2) s none = [info] := by
  unfold TG.log
  rw [htip]
  have hq : TG.parseCommit s.store p = none := by
    simp [TG.parseCommit, hmiss]
  simp [TG.logAux, hparse, hp, hq]

/-- Witness for the amended C8 at the concrete broken repository `s8`. -/
theorem c8_witness : TG.log 12 s8 none = [⟨9, 5, [77], "A", "A", "m2", 1⟩] :=
  c8_amended 10 s8 9 77 (by rfl) ⟨9, 5, [77], "A", "A", "m2", 1⟩ (by rfl)
    (by rfl) (by rfl)

/-! ## C3: commit invariant and the index-rebuild defect -/

/-- C3: evaluation of `TrueGit.commit` at the failing input `s3`: the
committed tree holds both `a.txt` and `sub/b.txt`, but the rebuilt index
holds only `sub/b.txt` — `_rebuild_index_from_tree` executes
`self.index.clear()` again inside the recursive call for `sub`, dropping
the already-inserted `a.txt`.  The commit invariant of the claim is
violated. -/
theorem c3_bug_eval :
    (TG.commit encGObj 10 s3 "m" "A" "A" 0).map (fun r => r.2.index) =
      some [("sub/b.txt", ⟨encGObj (.blob [50]), "100644"⟩)] ∧
    (TG.commit encGObj 10 s3 "m" "A" "A" 0).map (fun r =>
        TG.walkTree r.2.store 10 c3treeOid "") =
      some (some [("a.txt", "100644", encGObj (.blob [49])),
                  ("sub/b.txt", "100644", encGObj (.blob [50]))]) ∧
    (TG.commit encGObj 10 s3 "m" "A" "A" 0).map (fun r =>
        (TG.parseCommit r.2.store r.1).map (fun i => i.tree)) =
      some (some c3treeOid) := by
  decide

/-! ## C5: bootstrap -/

/-- C5: bootstrapping an empty directory crashes instead of creating the
initial commit.  On a fresh `Repo.init`, dulwich `refs.keys()` contains
`HEAD` (the file exists even though the branch it points to is unborn),
so the guard `not self.repo.refs.keys()` is false and `_initial_commit`
never runs; `refs/heads/main` is then missing, and the ensure-main
guard's `repo.head()` raises `KeyError` on the unborn default branch —
whatever the digest and clock, no commit, no `main` branch and no
`branches() = ["main"]` ever materialize. -/
theorem c5_bug_eval (h : TG.GObj → TG.Oid) (now : Nat) :
    SG.refsKeys SG.repoInit ≠ [] ∧
    look SG.repoInit.refs "refs/heads/main" = none ∧
    SG.repoHead SG.repoInit = none ∧
    SG.sgInit h now = none :=
  ⟨by decide, by decide, by decide, rfl⟩

/-! ## Association-list well-formedness lemmas -/

theorem mem_keys_upsert [DecidableEq σ] (l : List (σ × α)) (k q : σ) (v : α)
    (hq : q ∈ (upsert l k v).map Prod.fst) : q ∈ l.map Prod.fst ∨ q = k := by
  induction l with
  | nil =>
    simp only [upsert, List.map_cons, List.map_nil, List.mem_singleton] at hq
    exact Or.inr hq
  | cons p t ih =>
    obtain ⟨k0, v0⟩ := p
    by_cases h : k = k0
    · subst h
      have hup : upsert ((k, v0) :: t) k v = (k, v) :: t := by
        simp [upsert]
      rw [hup] at hq
      simp only [List.map_cons, List.mem_cons] at hq ⊢
      tauto
    · simp only [upsert, h, if_false, List.map_cons, List.mem_cons] at hq ⊢
      rcases hq with hq | hq
      · tauto
      · rcases ih hq with hh | hh <;> tauto

theorem upsert_keys_nodup [DecidableEq σ] (l : List (σ × α)) (k : σ) (v : α)
    (h : (l.map Prod.fst).Nodup) : ((upsert l k v).map Prod.fst).Nodup := by
  induction l with
  | nil => simp [upsert]
  | cons p t ih =>
    obtain ⟨k0, v0⟩ := p
    rcases List.nodup_cons.mp h with ⟨hk0, ht⟩
    by_cases hk : k = k0
    · subst hk
      simpa [upsert] using h
    · simp only [upsert, hk, if_false, List.map_cons]
      refine List.nodup_cons.mpr ⟨?_, ih ht⟩
      intro hmem
      rcases mem_keys_upsert t k k0 v hmem with hh | hh
      · exact hk0 hh
      · exact hk hh.symm

theorem foldl_upsert_keys_nodup [DecidableEq σ] (f : β → σ) (g : β → α)
    (files : List β) :
    ∀ l : List (σ × α), (l.map Prod.fst).Nodup →
      ((files.foldl (fun wt x => upsert wt (f x) (g x)) l).map Prod.fst).Nodup := by
  induction files with
  | nil => intro l hl; simpa using hl
  | cons x t ih =>
    intro l hl
    exact ih (upsert l (f x) (g x)) (upsert_keys_nodup l (f x) (g x) hl)

theorem look_removeKey_self [DecidableEq σ] (l : List (σ × α)) (k : σ)
    (h : (l.map Prod.fst).Nodup) : look (removeKey l k) k = none := by
  induction l with
  | nil => simp [removeKey, look]
  | cons p t ih =>
    obtain ⟨k0, v0⟩ := p
    rcases List.nodup_cons.mp h with ⟨hk0, ht⟩
    by_cases hk : k = k0
    · subst hk
      have hrk : removeKey ((k, v0) :: t) k = t := by simp [removeKey]
      rw [hrk]
      refine look_eq_none.mpr fun p hp hpk => hk0 ?_
      rw [← hpk]
      exact List.mem_map.mpr ⟨p, hp, rfl⟩
    · simp [removeKey, hk, look, ih ht]

/-! ## C9: delete of an untracked path -/

/-- C9: when `p` exists in the working tree but is absent from the head
tree (hence from the index `delete` has just rebuilt), `SimpleGit.delete`
returns the failure envelope "File not tracked", commits nothing and
changes no ref — but the working-tree file at `p` has already been
unlinked: the failed delete is not atomic with respect to the working
tree. -/
theorem c9_delete_not_atomic (h : TG.GObj → TG.Oid) (fuel : Nat)
    (s : SG.SGState) (filepath branch message : String) (now : Nat)
    (hstrip : SG.stripSlashes filepath = filepath)
    (tip : TG.Oid) (href : look s.refs ("refs/heads/" ++ branch) = some tip)
    (treeOid : TG.Oid) (ps : List TG.Oid) (a c m : String) (d : Nat)
    (hcommit : TG.readObject s.store tip = some (.commit treeOid ps a c m d))
    (tf : List (String × String × TG.Oid))
    (hwalk : TG.walkTree s.store fuel treeOid "" = some tf)
    (files : List (String × TG.Oid × Bordoc.Bytes))
    (hres : SG.resolveBlobs s.store tf = some files)
    (huntracked : look (files.map (fun f => (f.1, f.2.1))) filepath = none)
    (hwt : (look s.worktree filepath).isSome)
    (hnd : (s.worktree.map Prod.fst).Nodup) :
    SG.sgDelete h fuel s filepath branch message now =
      some ({ success := false, deleted := false, commit := none,
              branch := branch, file := filepath, message := message,
              error := some "File not tracked" },
        { s with
            worktree := removeKey
              (files.foldl (fun wt f => upsert wt f.1 f.2.2) s.worktree)
              filepath,
            index := files.map (fun f => (f.1, f.2.1)) }) ∧
    look (removeKey (files.foldl (fun wt f => upsert wt f.1 f.2.2) s.worktree)
        filepath) filepath = none := by
  constructor
  · simp [SG.sgDelete, hstrip, SG.getHeadCommit, href, hcommit,
      SG.buildWorkingTreeIndex, hwalk, hres, huntracked]
  · exact look_removeKey_self _ _
      (foldl_upsert_keys_nodup (fun f => f.1) (fun f => f.2.2) files
        s.worktree hnd)

/-! ## Object-store invariant lemmas (structural store) -/

namespace TG

theorem Consistent_hashObject (h : GObj → Oid) (st : Store) (o : GObj)
    (hc : Consistent h st) : Consistent h (hashObject h st o).2 := by
  have hdef : (hashObject h st o).2 =
      if (look st (h o)).isSome then st else (h o, o) :: st := rfl
  rw [hdef]
  split
  · exact hc
  · intro p hp
    rcases List.mem_cons.mp hp with hp | hp
    · rw [hp]
    · exact hc p hp

theorem look_hashObject_mono (h : GObj → Oid) (st : Store) (o : GObj)
    (k : Oid) (v : GObj) (hl : look st k = some v) :
    look (hashObject h st o).2 k = some v := by
  have hdef : (hashObject h st o).2 =
      if (look st (h o)).isSome then st else (h o, o) :: st := rfl
  rw [hdef]
  split
  · exact hl
  · rename_i hnone
    have hk : k ≠ h o := by
      intro he
      rw [he] at hl
      simp [hl] at hnone
    simp [look, hk, hl]

theorem readObject_hashObject (h : GObj → Oid) (hinj : Function.Injective h)
    (st : Store) (o : GObj) (hc : Consistent h st) :
    readObject (hashObject h st o).2 (h o) = some o := by
  have hdef : (hashObject h st o).2 =
      if (look st (h o)).isSome then st else (h o, o) :: st := rfl
  unfold readObject
  rw [hdef]
  rcases hl : look st (h o) with _ | v
  · simp [hl, look]
  · simp only [hl, Option.isSome_some, if_true]
    have hv : v = o := hinj (hc _ (look_mem hl)).symm
    rw [hv]

end TG

/-! ## C10: read and ls silently create a missing branch ref -/

/-- C10: for a branch `b` whose ref does not exist, the read-only façade
operations `read` and `ls` silently create `refs/heads/b` pointing at the
commit HEAD resolves to — as a side effect of `_get_head_commit` — and
answer against that branch, instead of failing with a branch-missing
error. -/
theorem c10_read_ls_create_ref (s : SG.SGState) (b filepath : String)
    (base treeOid : TG.Oid) (ps : List TG.Oid) (a c m : String) (d : Nat)
    (es : List (String × String × TG.Oid))
    (hmiss : look s.refs ("refs/heads/" ++ b) = none)
    (hhead : look s.refs s.headTarget = some base)
    (hobj : TG.readObject s.store base = some (.commit treeOid ps a c m d))
    (htree : TG.readObject s.store treeOid = some (.tree es))
    (bres : Option Bordoc.Bytes)
    (hblob : SG.getBlobContentFromCommit s.store treeOid
      (SG.stripSlashes filepath) = some bres)
    (entries : List SG.LsEntry)
    (hls : SG.lsEntries s.store (upsert s.refs ("refs/heads/" ++ b) base) b []
      es = some entries) :
    SG.sgRead s filepath b =
      some ((match bres with
        | none =>
          { success := false, content := none, branch := b,
            file := SG.stripSlashes filepath, commit := none,
            error := some ("File " ++ SG.stripSlashes filepath ++ " not found") }
        | some data =>
          { success := true, content := some (bytesStr data), branch := b,
            file := SG.stripSlashes filepath, commit := some base,
            error := none }),
        { s with refs := upsert s.refs ("refs/heads/" ++ b) base }) ∧
    SG.sgLs s "" b =
      ({ success := true, branch := b, path := ".", entries := entries,
         error := none },
       { s with refs := upsert s.refs ("refs/heads/" ++ b) base }) := by
  have hstrip0 : SG.stripSlashes "" = "" := rfl
  constructor
  · cases bres <;>
      simp [SG.sgRead, SG.getHeadCommit, hmiss, hhead, hobj, hblob]
  · simp [SG.sgLs, SG.getHeadCommit, hmiss, hhead, hobj, htree,
      SG.descendTree, hls, hstrip0]

/-- Witness for C10 at the concrete repository `s10`: reading and listing
on the nonexistent branch `feat` succeeds against the HEAD commit and
leaves `refs/heads/feat` behind. -/
theorem c10_witness :
    SG.sgRead s10 "p.txt" "feat" =
      some ({ success := true, content := some "a", branch := "feat",
              file := "p.txt", commit := some 9, error := none },
        { s10 with refs := upsert s10.refs "refs/heads/feat" 9 }) ∧
    SG.sgLs s10 "" "feat" =
      ({ success := true, branch := "feat", path := ".",
         entries := [{ name := "p.txt", entryType := "file",
                       mode := "100644", sha := 3, changedIn := [] }],
         error := none },
       { s10 with refs := upsert s10.refs "refs/heads/feat" 9 }) :=
  c10_read_ls_create_ref s10 "feat" "p.txt" 9 2 [] "A" "A" "init" 0
    [("100644", "p.txt", 3)] (by rfl) (by rfl) (by rfl) (by rfl)
    (some [97]) (by rfl)
    [{ name := "p.txt", entryType := "file", mode := "100644", sha := 3,
       changedIn := [] }] (by rfl)

/-! ## C6: write — idempotence and the changed-content path -/

/-- C6 (amended): when the content of `p` in the head commit of the
existing branch `b` already equals the new bytes, `write` returns a
success envelope with `created = false`, no commit, message "No changes",
and the state — tip of `b`, log, everything — completely unchanged.
Otherwise a new commit is created on `b` whose parent is the old tip and
the ref is advanced to it; but because `build_index_from_tree`
re-materializes the head tree *after* the file has been written, what
gets staged and committed is the on-disk content after materialization
(the old head content whenever `p` was tracked, the new content only for
untracked paths), and the working file carries that content as well. -/
theorem c6_write (h : TG.GObj → TG.Oid) (hinj : Function.Injective h)
    (fuel : Nat) (s : SG.SGState) (filepath content b message : String)
    (now : Nat)
    (hcons : TG.Consistent h s.store)
    (hstrip : SG.stripSlashes filepath = filepath)
    (tip : TG.Oid) (href : look s.refs ("refs/heads/" ++ b) = some tip)
    (treeOid : TG.Oid) (ps : List TG.Oid) (a c m : String) (d : Nat)
    (hobj : TG.readObject s.store tip = some (.commit treeOid ps a c m d))
    (oldOpt : Option Bordoc.Bytes)
    (hblob : SG.getBlobContentFromCommit s.store treeOid filepath = some oldOpt)
    (tf : List (String × String × TG.Oid))
    (hwalk : TG.walkTree s.store fuel treeOid "" = some tf)
    (files : List (String × TG.Oid × Bordoc.Bytes))
    (hres : SG.resolveBlobs s.store tf = some files)
    (onDisk : Bordoc.Bytes)
    (hdisk : look (files.foldl (fun wt f => upsert wt f.1 f.2.2)
        (upsert s.worktree filepath (strBytes content))) filepath =
      some onDisk) :
    (oldOpt = some (strBytes content) →
      SG.sgWrite h fuel s filepath content b message now =
        some ({ success := true, created := false, commit := none,
                branch := b, file := filepath, message := "No changes",
                error := none }, s)) ∧
    (oldOpt ≠ some (strBytes content) →
      ∃ env s2, SG.sgWrite h fuel s filepath content b message now =
          some (env, s2) ∧
        env.success = true ∧ env.created = true ∧
        ∃ cid T, env.commit = some cid ∧
          look s2.refs ("refs/heads/" ++ b) = some cid ∧
          TG.readObject s2.store cid =
            some (.commit T [tip] "simplegit <local>" "simplegit <local>"
              message now) ∧
          look s2.worktree filepath = some onDisk ∧
          look s2.index filepath = some (h (.blob onDisk))) := by
  constructor
  · intro heq
    simp [SG.sgWrite, hstrip, SG.getHeadCommit, href, hobj, hblob, heq]
  · intro hne
    have hgh : SG.getHeadCommit s b =
        some ((tip, .commit treeOid ps a c m d), s) := by
      simp [SG.getHeadCommit, href, hobj]
    have hconsb : TG.Consistent h (TG.hashObject h s.store (.blob onDisk)).2 :=
      TG.Consistent_hashObject h s.store _ hcons
    have hmono1 :
        look (TG.hashObject h s.store (.blob onDisk)).2 tip =
          some (.commit treeOid ps a c m d) :=
      TG.look_hashObject_mono h s.store _ tip _ hobj
    -- abbreviations for the staged index, the committed tree and commit
    have hrun : ∀ tobj : TG.GObj, ∀ cobj : TG.GObj,
        tobj = .tree (sortByKey (fun e => e.2.1)
          ((upsert (files.map (fun f => (f.1, f.2.1))) filepath
              (h (.blob onDisk))).map (fun e => (("100644" : String), e)))) →
        cobj = .commit (h tobj) [tip] "simplegit <local>" "simplegit <local>"
          message now →
        SG.sgWrite h fuel s filepath content b message now =
          some ({ success := true, created := true, commit := some (h cobj),
                  branch := b, file := filepath, message := message,
                  error := none },
            { s with
                worktree := files.foldl (fun wt f => upsert wt f.1 f.2.2)
                  (upsert s.worktree filepath (strBytes content)),
                index := upsert (files.map (fun f => (f.1, f.2.1))) filepath
                  (h (.blob onDisk)),
                store := (TG.hashObject h
                  (TG.hashObject h
                    (TG.hashObject h s.store (.blob onDisk)).2 tobj).2 cobj).2,
                refs := upsert s.refs ("refs/heads/" ++ b) (h cobj) }) := by
      intro tobj cobj htobj hcobj
      have hmono2 :
          look (TG.hashObject h
            (TG.hashObject h s.store (.blob onDisk)).2 tobj).2 tip =
            some (.commit treeOid ps a c m d) :=
        TG.look_hashObject_mono h _ _ tip _ hmono1
      subst htobj hcobj
      have hobj' : look s.store tip = some (TG.GObj.commit treeOid ps a c m d) :=
        hobj
      have hfst : ∀ (st : TG.Store) (o : TG.GObj), (TG.hashObject h st o).1 = h o :=
        fun _ _ => rfl
      simp [SG.sgWrite, hstrip, hblob, hne, SG.buildWorkingTreeIndex,
        hwalk, hres, hdisk, SG.createCommit, SG.getHeadCommit, href, hobj',
        TG.readObject, hmono2, hfst]
    have H := hrun _ _ rfl rfl
    exact ⟨_, _, H, rfl, rfl, _, _, rfl,
      look_upsert_self _ _ _,
      TG.readObject_hashObject h hinj _ _
        (TG.Consistent_hashObject h _ _ hconsb),
      hdisk, look_upsert_self _ _ _⟩

/-- C6 counterexample for the claim's otherwise-branch: on `s6c`
(tracking `p.txt` = "a"), writing content "b" reports `created = true`,
but afterwards the working file still holds "a" and the branch content of
`p.txt` is still "a" — the index rebuild re-materialized the old bytes
over the just-written file before staging, so neither the file nor the
new commit carries the new content. -/
theorem c6_counterexample :
    (SG.sgWrite encGObj 10 s6c "p.txt" "b" "main" "upd" 1).map
        (fun r => (r.1.success, r.1.created, look r.2.worktree "p.txt")) =
      some (true, true, some [97]) ∧
    (SG.sgWrite encGObj 10 s6c "p.txt" "b" "main" "upd" 1).map
        (fun r => (SG.sgRead r.2 "p.txt" "main").map (fun rr => rr.1.content)) =
      some (some (some "a")) := by
  decide

/-- Witness for C6 at a concrete input: rewriting `p.txt` with its
current content "a" returns success-without-commit and leaves the state
untouched. -/
theorem c6_witness :
    SG.sgWrite encGObj 10 s6c "p.txt" "a" "main" "upd" 1 =
      some ({ success := true, created := false, commit := none,
              branch := "main", file := "p.txt", message := "No changes",
              error := none }, s6c) :=
  (c6_write encGObj encGObj_injective 10 s6c "p.txt" "a" "main" "upd" 1
    (by decide) (by decide) c6commitOid (by rfl) c6treeOid [] "A" "A" "init" 0
    (by rfl) (some [97]) (by rfl) [("p.txt", "100644", c6blobOid)] (by rfl)
    [("p.txt", c6blobOid, [97])] (by rfl) [97] (by rfl)).1 (by decide)

/-! ## Helper lemmas for the checkout and `.git`-frame claims -/

theorem pathComponents_append (pre n : String) (hpre : pre ≠ "") :
    pathComponents (joinPath pre n) = pathComponents pre ++ pathComponents n := by
  unfold joinPath
  rw [if_neg hpre]
  unfold pathComponents
  have hdata : (pre ++ "/" ++ n).data = pre.data ++ '/' :: n.data := by
    simp [String.data_append]
  rw [hdata, splitSlashes_append, List.map_append]

theorem look_filter_git (l : List (String × TG.FSNode)) :
    look (List.filter (fun c => c.1 == ".git") l) ".git" = look l ".git" := by
  induction l with
  | nil => rfl
  | cons p t ih =>
    obtain ⟨n, node⟩ := p
    by_cases hn : n = ".git"
    · subst hn
      simp [List.filter, look, ih]
    · have hb : (n == ".git") = false := by simpa using hn
      have hn2 : (".git" : String) ≠ n := Ne.symm hn
      simp [List.filter, hb, look, hn2, ih]

theorem all_nogit_of_objNoGitB {es : List (String × String × TG.Oid)}
    (h : TG.objNoGitB (.tree es) = true) : ∀ e ∈ es, e.2.1 ≠ ".git" := by
  intro e he
  have := (List.all_eq_true.mp h) e he
  simpa using this

theorem namesDistinct_of_objWFB {es : List (String × String × TG.Oid)}
    (h : TG.objWFB (.tree es) = true) : TG.namesDistinctB es = true := by
  simp only [TG.objWFB, Bool.and_eq_true] at h
  exact h.1

theorem namesDistinct_head {mode name : String} {sha : TG.Oid}
    {t : List (String × String × TG.Oid)}
    (h : TG.namesDistinctB ((mode, name, sha) :: t) = true) :
    (∀ x ∈ t, x.2.1 ≠ name) ∧ TG.namesDistinctB t = true := by
  simp only [TG.namesDistinctB, Bool.and_eq_true, Bool.not_eq_true'] at h
  refine ⟨?_, h.2⟩
  intro x hx heq
  have hmem : name ∈ t.map (fun x => x.2.1) :=
    List.mem_map.mpr ⟨x, hx, heq⟩
  have hcon : name ∉ t.map (fun x => x.2.1) := by simpa using h.1
  exact hcon hmem

/-- Names not among the processed entries keep their binding through the
`_extract_tree` entry loop. -/
theorem extractEntries_frame (st : TG.Store) : ∀ fuel es cur cur2,
    TG.extractEntries st fuel es cur = some cur2 →
    ∀ n, (∀ e ∈ es, e.2.1 ≠ n) → look cur2 n = look cur n := by
  intro fuel
  induction fuel with
  | zero =>
    intro es cur cur2 hx n hn
    cases es with
    | nil =>
      simp only [TG.extractEntries, Option.some_inj] at hx
      rw [hx]
    | cons e t => simp [TG.extractEntries] at hx
  | succ f ih =>
    intro es cur cur2 hx n hn
    cases es with
    | nil =>
      simp only [TG.extractEntries, Option.some_inj] at hx
      rw [hx]
    | cons e t =>
      obtain ⟨mode, name, sha⟩ := e
      have hname : name ≠ n := hn (mode, name, sha) (by simp)
      have ht : ∀ x ∈ t, x.2.1 ≠ n := fun x hxm => hn x (by simp [hxm])
      by_cases hm : mode = "40000"
      · subst hm
        cases hlook : look cur name with
        | none =>
          simp only [TG.extractEntries, if_pos rfl, hlook] at hx
          cases hext : TG.extractTree st f sha [] with
          | none => rw [hext] at hx; exact absurd hx (by simp)
          | some ch2 =>
            rw [hext] at hx
            rw [ih t _ cur2 hx n ht, look_upsert_other _ _ _ _ (Ne.symm hname)]
        | some node =>
          cases node with
          | file c x => simp [TG.extractEntries, hlook] at hx
          | dir ch =>
            simp only [TG.extractEntries, if_pos rfl, hlook] at hx
            cases hext : TG.extractTree st f sha ch with
            | none => rw [hext] at hx; exact absurd hx (by simp)
            | some ch2 =>
              rw [hext] at hx
              rw [ih t _ cur2 hx n ht, look_upsert_other _ _ _ _ (Ne.symm hname)]
      · cases hread : TG.readObject st sha with
        | none => simp [TG.extractEntries, hm, hread] at hx
        | some obj =>
          cases obj with
          | blob d =>
            simp only [TG.extractEntries, hm, if_false, hread] at hx
            rw [ih t _ cur2 hx n ht, look_upsert_other _ _ _ _ (Ne.symm hname)]
          | tree es2 => simp [TG.extractEntries, hm, hread] at hx
          | commit t2 ps a c m d => simp [TG.extractEntries, hm, hread] at hx

/-- Files of an upserted file entry: each is an old file or the new
one. -/
theorem wtFiles_upsert_file (l : List (String × TG.FSNode)) (n : String)
    (c : Bordoc.Bytes) (x : Bool) (pre : String) :
    ∀ f ∈ TG.wtFiles (upsert l n (.file c x)) pre,
      f ∈ TG.wtFiles l pre ∨ f = (joinPath pre n, c, x) := by
  induction l with
  | nil =>
    intro f hf
    simp only [upsert, TG.wtFiles, TG.wtNodeFiles, List.append_nil,
      List.mem_singleton] at hf
    exact Or.inr hf
  | cons p t ih =>
    obtain ⟨m, node⟩ := p
    intro f hf
    by_cases hnm : n = m
    · subst hnm
      simp only [upsert, if_pos rfl] at hf
      simp only [TG.wtFiles, TG.wtNodeFiles, List.mem_append,
        List.mem_singleton] at hf
      rcases hf with hf | hf
      · exact Or.inr hf
      · refine Or.inl ?_
        simp only [TG.wtFiles, List.mem_append]
        exact Or.inr hf
    · simp only [upsert, if_neg hnm] at hf
      simp only [TG.wtFiles, List.mem_append] at hf ⊢
      rcases hf with hf | hf
      · exact Or.inl (Or.inl hf)
      · rcases ih f hf with h1 | h1
        · exact Or.inl (Or.inr h1)
        · exact Or.inr h1

/-- Files of an upserted directory entry: each is an old file or a file
of the new subtree. -/
theorem wtFiles_upsert_dir (l : List (String × TG.FSNode)) (n : String)
    (ch : List (String × TG.FSNode)) (pre : String) :
    ∀ f ∈ TG.wtFiles (upsert l n (.dir ch)) pre,
      f ∈ TG.wtFiles l pre ∨ f ∈ TG.wtFiles ch (joinPath pre n) := by
  induction l with
  | nil =>
    intro f hf
    simp only [upsert, TG.wtFiles, TG.wtNodeFiles, List.append_nil] at hf
    exact Or.inr hf
  | cons p t ih =>
    obtain ⟨m, node⟩ := p
    intro f hf
    by_cases hnm : n = m
    · subst hnm
      simp only [upsert, if_pos rfl] at hf
      simp only [TG.wtFiles, TG.wtNodeFiles, List.mem_append] at hf
      rcases hf with hf | hf
      · exact Or.inr hf
      · refine Or.inl ?_
        simp only [TG.wtFiles, List.mem_append]
        exact Or.inr hf
    · simp only [upsert, if_neg hnm] at hf
      simp only [TG.wtFiles, List.mem_append] at hf ⊢
      rcases hf with hf | hf
      · exact Or.inl (Or.inl hf)
      · rcases ih f hf with h1 | h1
        · exact Or.inl (Or.inr h1)
        · exact Or.inr h1

/-- Files of a subdirectory found by lookup are files of the whole
listing. -/
theorem wtFiles_look_dir (l : List (String × TG.FSNode)) (n : String)
    (ch : List (String × TG.FSNode)) (pre : String)
    (h : look l n = some (.dir ch)) :
    ∀ f ∈ TG.wtFiles ch (joinPath pre n), f ∈ TG.wtFiles l pre := by
  induction l with
  | nil => simp [look] at h
  | cons p t ih =>
    obtain ⟨m, node⟩ := p
    intro f hf
    by_cases hnm : n = m
    · subst hnm
      simp [look] at h
      subst h
      simp only [TG.wtFiles, TG.wtNodeFiles, List.mem_append]
      exact Or.inl hf
    · simp only [look, if_neg hnm] at h
      simp only [TG.wtFiles, List.mem_append]
      exact Or.inr (ih h f hf)

/-- Any component of the walk prefix is a component of every file path
produced under it. -/
theorem wtFiles_pre_component (c : String) (hc : c ≠ "") : ∀ N l pre,
    sizeOf l ≤ N → c ∈ pathComponents pre →
    ∀ f ∈ TG.wtFiles l pre, c ∈ pathComponents f.1 := by
  intro N
  induction N with
  | zero =>
    intro l pre hsz hcp f hf
    cases l with
    | nil => simp [TG.wtFiles] at hf
    | cons p t =>
      exfalso
      have h1 : sizeOf (p :: t) = 1 + sizeOf p + sizeOf t := rfl
      omega
  | succ N ih =>
    intro l pre hsz hcp f hf
    have hpre : pre ≠ "" := by
      intro h0
      subst h0
      have h0c : pathComponents "" = [""] := by decide
      rw [h0c] at hcp
      exact hc (List.mem_singleton.mp hcp)
    cases l with
    | nil => simp [TG.wtFiles] at hf
    | cons p t =>
      obtain ⟨n, node⟩ := p
      have hszc : sizeOf ((n, node) :: t) = 1 + sizeOf (n, node) + sizeOf t := rfl
      have hszp : sizeOf (n, node) = 1 + sizeOf n + sizeOf node := rfl
      simp only [TG.wtFiles, List.mem_append] at hf
      rcases hf with hf | hf
      · cases node with
        | file cc x =>
          have hx : f = (joinPath pre n, cc, x) := by
            simpa [TG.wtNodeFiles] using hf
          rw [hx]
          show c ∈ pathComponents (joinPath pre n)
          rw [pathComponents_append pre n hpre]
          exact List.mem_append_left _ hcp
        | dir ch =>
          have hfch : f ∈ TG.wtFiles ch (joinPath pre n) := by
            simpa [TG.wtNodeFiles] using hf
          have hszn : sizeOf (TG.FSNode.dir ch) = 1 + sizeOf ch := by simp
          refine ih ch (joinPath pre n) (by omega) ?_ f hfch
          rw [pathComponents_append pre n hpre]
          exact List.mem_append_left _ hcp
      · exact ih t pre (by omega) hcp f hf

/-- Every file under a listing whose entries are all named `.git` has
`.git` among its path components. -/
theorem wtFiles_gitonly (l : List (String × TG.FSNode))
    (hl : ∀ p ∈ l, p.1 = ".git") :
    ∀ f ∈ TG.wtFiles l "", ".git" ∈ pathComponents f.1 := by
  induction l with
  | nil => simp [TG.wtFiles]
  | cons p t ih =>
    obtain ⟨n, node⟩ := p
    have hn : n = ".git" := hl (n, node) (by simp)
    subst hn
    have ht : ∀ p ∈ t, p.1 = ".git" := fun p hp => hl p (by simp [hp])
    intro f hf
    simp only [TG.wtFiles, List.mem_append] at hf
    rcases hf with hf | hf
    · cases node with
      | file cc x =>
        have hx : f = (joinPath "" ".git", cc, x) := by
          simpa [TG.wtNodeFiles] using hf
        rw [hx]
        show (".git" : String) ∈ pathComponents (joinPath "" ".git")
        decide
      | dir ch =>
        have hfch : f ∈ TG.wtFiles ch (joinPath "" ".git") := by
          simpa [TG.wtNodeFiles] using hf
        exact wtFiles_pre_component ".git" (by decide) (sizeOf ch) ch
          (joinPath "" ".git") (le_refl _) (by decide) f hfch
    · exact ih ht f hf

/-- Joint correspondence for checkout: a successful `_extract_tree`
materializes exactly the files that the tree walk enumerates — every
walked `(path, mode, oid)` triple is present at its components with the
blob bytes and the executable bit from the mode, and every file of the
result is either a file of the starting context or a walked tree file. -/
theorem extract_walk (st : TG.Store) (hwf : TG.TreesWF st) : ∀ fuel,
    (∀ sha cur cur2 pre tf,
       TG.extractTree st fuel sha cur = some cur2 →
       TG.walkTree st fuel sha pre = some tf →
       ((∀ e ∈ tf, ∃ comps d, comps ≠ [] ∧ e.1 = TG.joinAll pre comps ∧
           TG.readObject st e.2.2 = some (TG.GObj.blob d) ∧
           TG.lookupPath cur2 comps =
             some (TG.FSNode.file d (e.2.1 == "100755"))) ∧
        (∀ f ∈ TG.wtFiles cur2 pre, f ∈ TG.wtFiles cur pre ∨
           ∃ e ∈ tf, e.1 = f.1 ∧
             TG.readObject st e.2.2 = some (TG.GObj.blob f.2.1) ∧
             f.2.2 = (e.2.1 == "100755")))) ∧
    (∀ es cur cur2 pre tf, TG.namesDistinctB es = true →
       TG.extractEntries st fuel es cur = some cur2 →
       TG.walkEntries st fuel es pre = some tf →
       ((∀ e ∈ tf, ∃ comps d, comps ≠ [] ∧ e.1 = TG.joinAll pre comps ∧
           TG.readObject st e.2.2 = some (TG.GObj.blob d) ∧
           TG.lookupPath cur2 comps =
             some (TG.FSNode.file d (e.2.1 == "100755"))) ∧
        (∀ f ∈ TG.wtFiles cur2 pre, f ∈ TG.wtFiles cur pre ∨
           ∃ e ∈ tf, e.1 = f.1 ∧
             TG.readObject st e.2.2 = some (TG.GObj.blob f.2.1) ∧
             f.2.2 = (e.2.1 == "100755")))) := by
  intro fuel
  induction fuel with
  | zero =>
    constructor
    · intro sha cur cur2 pre tf hext hwalk
      simp [TG.extractTree] at hext
    · intro es cur cur2 pre tf hnd hext hwalk
      cases es with
      | nil =>
        simp only [TG.extractEntries, Option.some_inj] at hext
        simp only [TG.walkEntries, Option.some_inj] at hwalk
        subst hext
        subst hwalk
        exact ⟨by simp, fun f2 hf2 => Or.inl hf2⟩
      | cons e t => simp [TG.extractEntries] at hext
  | succ f ihf =>
    obtain ⟨ihT, ihE⟩ := ihf
    constructor
    · intro sha cur cur2 pre tf hext hwalk
      cases hread : TG.readObject st sha with
      | none => simp [TG.extractTree, hread] at hext
      | some obj =>
        cases obj with
        | blob d => simp [TG.extractTree, hread] at hext
        | commit t2 ps a c m dd => simp [TG.extractTree, hread] at hext
        | tree entries =>
          have hext2 : TG.extractEntries st f entries cur = some cur2 := by
            simpa [TG.extractTree, hread] using hext
          have hwalk2 : TG.walkEntries st f entries pre = some tf := by
            simpa [TG.walkTree, hread] using hwalk
          have hmem : (sha, TG.GObj.tree entries) ∈ st := look_mem hread
          have hnd : TG.namesDistinctB entries = true :=
            namesDistinct_of_objWFB (hwf _ hmem)
          exact ihE entries cur cur2 pre tf hnd hext2 hwalk2
    · intro es cur cur2 pre tf hnd hext hwalk
      cases es with
      | nil =>
        simp only [TG.extractEntries, Option.some_inj] at hext
        simp only [TG.walkEntries, Option.some_inj] at hwalk
        subst hext
        subst hwalk
        exact ⟨by simp, fun f2 hf2 => Or.inl hf2⟩
      | cons e t =>
        obtain ⟨mode, name, sha⟩ := e
        obtain ⟨hhead, htail⟩ := namesDistinct_head hnd
        by_cases hm : mode = "40000"
        · subst hm
          cases hsub : TG.walkTree st f sha (joinPath pre name) with
          | none => simp [TG.walkEntries, hsub] at hwalk
          | some sub =>
            cases hrs : TG.walkEntries st f t pre with
            | none => simp [TG.walkEntries, hsub, hrs] at hwalk
            | some rs =>
              have htf : tf = sub ++ rs := by
                have hw := hwalk
                simp [TG.walkEntries, hsub, hrs] at hw
                exact hw.symm
              subst htf
              cases hlook : look cur name with
              | none =>
                cases hchx : TG.extractTree st f sha
                    ([] : List (String × TG.FSNode)) with
                | none => simp [TG.extractEntries, hlook, hchx] at hext
                | some ch2 =>
                  have hext2 : TG.extractEntries st f t
                      (upsert cur name (TG.FSNode.dir ch2)) = some cur2 := by
                    simpa [TG.extractEntries, hlook, hchx] using hext
                  obtain ⟨hsubA, hsubB⟩ :=
                    ihT sha _ ch2 (joinPath pre name) sub hchx hsub
                  obtain ⟨hrestA, hrestB⟩ := ihE t _ cur2 pre rs htail hext2 hrs
                  have hlk2 : look cur2 name = some (TG.FSNode.dir ch2) := by
                    rw [extractEntries_frame st f t _ cur2 hext2 name hhead]
                    exact look_upsert_self _ _ _
                  refine ⟨?_, ?_⟩
                  · intro e he
                    rcases List.mem_append.mp he with he | he
                    · obtain ⟨comps, d, hcne, hpath, hobj, hlp⟩ := hsubA e he
                      refine ⟨name :: comps, d, by simp, ?_, hobj, ?_⟩
                      · simpa [TG.joinAll] using hpath
                      · cases comps with
                        | nil => exact absurd rfl hcne
                        | cons c0 cs =>
                          have hstep : TG.lookupPath cur2 (name :: c0 :: cs) =
                              TG.lookupPath ch2 (c0 :: cs) := by
                            simp [TG.lookupPath, hlk2]
                          rw [hstep]
                          exact hlp
                    · exact hrestA e he
                  · intro f2 hf2
                    rcases hrestB f2 hf2 with hold | ⟨e, he, h1, h2, h3⟩
                    · rcases wtFiles_upsert_dir cur name ch2 pre f2 hold with
                        hold2 | hold2
                      · exact Or.inl hold2
                      · rcases hsubB f2 hold2 with hold3 | ⟨e, he, h1, h2, h3⟩
                        · simp [TG.wtFiles] at hold3
                        · exact Or.inr ⟨e, List.mem_append_left _ he, h1, h2, h3⟩
                    · exact Or.inr ⟨e, List.mem_append_right _ he, h1, h2, h3⟩
              | some node =>
                cases node with
                | file cc xx => simp [TG.extractEntries, hlook] at hext
                | dir ch =>
                  cases hchx : TG.extractTree st f sha ch with
                  | none => simp [TG.extractEntries, hlook, hchx] at hext
                  | some ch2 =>
                    have hext2 : TG.extractEntries st f t
                        (upsert cur name (TG.FSNode.dir ch2)) = some cur2 := by
                      simpa [TG.extractEntries, hlook, hchx] using hext
                    obtain ⟨hsubA, hsubB⟩ :=
                      ihT sha _ ch2 (joinPath pre name) sub hchx hsub
                    obtain ⟨hrestA, hrestB⟩ := ihE t _ cur2 pre rs htail hext2 hrs
                    have hlk2 : look cur2 name = some (TG.FSNode.dir ch2) := by
                      rw [extractEntries_frame st f t _ cur2 hext2 name hhead]
                      exact look_upsert_self _ _ _
                    refine ⟨?_, ?_⟩
                    · intro e he
                      rcases List.mem_append.mp he with he | he
                      · obtain ⟨comps, d, hcne, hpath, hobj, hlp⟩ := hsubA e he
                        refine ⟨name :: comps, d, by simp, ?_, hobj, ?_⟩
                        · simpa [TG.joinAll] using hpath
                        · cases comps with
                          | nil => exact absurd rfl hcne
                          | cons c0 cs =>
                            have hstep : TG.lookupPath cur2 (name :: c0 :: cs) =
                                TG.lookupPath ch2 (c0 :: cs) := by
                              simp [TG.lookupPath, hlk2]
                            rw [hstep]
                            exact hlp
                      · exact hrestA e he
                    · intro f2 hf2
                      rcases hrestB f2 hf2 with hold | ⟨e, he, h1, h2, h3⟩
                      · rcases wtFiles_upsert_dir cur name ch2 pre f2 hold with
                          hold2 | hold2
                        · exact Or.inl hold2
                        · rcases hsubB f2 hold2 with hold3 | ⟨e, he, h1, h2, h3⟩
                          · exact Or.inl (wtFiles_look_dir cur name ch pre hlook f2 hold3)
                          · exact Or.inr ⟨e, List.mem_append_left _ he, h1, h2, h3⟩
                      · exact Or.inr ⟨e, List.mem_append_right _ he, h1, h2, h3⟩
        · cases hrs : TG.walkEntries st f t pre with
          | none => simp [TG.walkEntries, hm, hrs] at hwalk
          | some rs =>
            have htf : tf = (joinPath pre name, mode, sha) :: rs := by
              have hw := hwalk
              simp [TG.walkEntries, hm, hrs] at hw
              exact hw.symm
            subst htf
            cases hread : TG.readObject st sha with
            | none => simp [TG.extractEntries, hm, hread] at hext
            | some obj =>
              cases obj with
              | tree es2 => simp [TG.extractEntries, hm, hread] at hext
              | commit t2 ps a c m dd => simp [TG.extractEntries, hm, hread] at hext
              | blob d =>
                have hext2 : TG.extractEntries st f t
                    (upsert cur name (TG.FSNode.file d (mode == "100755"))) =
                      some cur2 := by
                  simpa [TG.extractEntries, hm, hread] using hext
                obtain ⟨hrestA, hrestB⟩ := ihE t _ cur2 pre rs htail hext2 hrs
                have hlk2 : look cur2 name =
                    some (TG.FSNode.file d (mode == "100755")) := by
                  rw [extractEntries_frame st f t _ cur2 hext2 name hhead]
                  exact look_upsert_self _ _ _
                refine ⟨?_, ?_⟩
                · intro e he
                  rcases List.mem_cons.mp he with he | he
                  · subst he
                    refine ⟨[name], d, by simp, rfl, hread, ?_⟩
                    simp [TG.lookupPath, hlk2]
                  · exact hrestA e he
                · intro f2 hf2
                  rcases hrestB f2 hf2 with hold | ⟨e, he, h1, h2, h3⟩
                  · rcases wtFiles_upsert_file cur name d (mode == "100755") pre
                        f2 hold with hold2 | hold2
                    · exact Or.inl hold2
                    · subst hold2
                      exact Or.inr ⟨(joinPath pre name, mode, sha),
                        List.mem_cons_self _ _, rfl, hread, rfl⟩
                  · exact Or.inr ⟨e, List.mem_cons_of_mem _ he, h1, h2, h3⟩

/-! ## C1: state after a successful checkout -/

/-- C1 counterexample: switching `s1c` to branch `b` succeeds and
rewrites the working tree, but the index — which `switch` never touches —
still maps `f.txt` to blob 1 while the target tree maps it to blob 2, so
the "index equals the target tree" conjunct of the claim fails. -/
theorem c1_counterexample :
    look s1c.refs "b" = some 9 ∧
    (TG.switch 10 s1c "b").map TG.GitState.index =
      some [("f.txt", ⟨1, "100644"⟩)] ∧
    (TG.switch 10 s1c "b").map TG.GitState.currentBranch = some "b" ∧
    (TG.parseCommit s1c.store 9).map TG.CommitInfo.tree = some 5 ∧
    TG.walkTree s1c.store 10 5 "" = some [("f.txt", "100644", 2)] ∧
    ¬ TG.indexMatchesTree [("f.txt", ⟨1, "100644"⟩)]
        [("f.txt", "100644", 2)] := by
  decide

/-- C1 (amended): after a successful switch to `b`, HEAD is the symbolic
ref `ref: refs/heads/b` and the branch cache follows; the store, refs and
— contrary to the claim — the index are left exactly as they were; every
`(path, mode, oid)` file of the target tree is present in the working
tree at its components with the blob bytes and the executable bit from
the mode; and every working-tree file outside `.git` is such a target
tree file.  The index is not rebuilt, so "index equals the target tree"
fails whenever the previous index differs from it. -/
theorem c1_amended (fuel : Nat) (s : TG.GitState) (b : String)
    (hwf : TG.TreesWF s.store)
    (cid : TG.Oid) (hcid : look s.refs b = some cid)
    (info : TG.CommitInfo) (hinfo : TG.parseCommit s.store cid = some info)
    (tf : List (String × String × TG.Oid))
    (htf : TG.walkTree s.store fuel info.tree "" = some tf)
    (s2 : TG.GitState) (hsw : TG.switch fuel s b = some s2) :
    s2.head = "ref: refs/heads/" ++ b ∧ s2.currentBranch = b ∧
    s2.store = s.store ∧ s2.refs = s.refs ∧ s2.index = s.index ∧
    (∀ e ∈ tf, ∃ comps d, comps ≠ [] ∧ e.1 = TG.joinAll "" comps ∧
       TG.readObject s.store e.2.2 = some (TG.GObj.blob d) ∧
       TG.lookupPath s2.worktree comps =
         some (TG.FSNode.file d (e.2.1 == "100755"))) ∧
    (∀ f ∈ TG.scanFiles s2.worktree, ∃ e ∈ tf, e.1 = f.1 ∧
       TG.readObject s.store e.2.2 = some (TG.GObj.blob f.2.1) ∧
       f.2.2 = (e.2.1 == "100755")) := by
  simp only [TG.switch, hcid, TG.checkoutTree, hinfo] at hsw
  rcases hext : TG.extractTree s.store fuel info.tree
      (List.filter (fun c => c.1 == ".git") s.worktree) with _ | wt2
  · rw [hext] at hsw
    simp at hsw
  · rw [hext] at hsw
    simp only [Option.some_inj] at hsw
    subst hsw
    obtain ⟨hA, hB⟩ :=
      (extract_walk s.store hwf fuel).1 info.tree _ wt2 "" tf hext htf
    refine ⟨rfl, rfl, rfl, rfl, rfl, hA, ?_⟩
    intro f hf
    have hf2 := List.mem_filter.mp hf
    rcases hB f hf2.1 with hold | ⟨e, he, h1, h2, h3⟩
    · exfalso
      have hgit : ".git" ∈ pathComponents f.1 := by
        refine wtFiles_gitonly _ ?_ f hold
        intro p hp
        rcases List.mem_filter.mp hp with ⟨_, hb⟩
        exact eq_of_beq hb
      have hcon := hf2.2
      simp only [Bool.not_eq_true'] at hcon
      have : (pathComponents f.1).contains ".git" = true := by
        simpa using hgit
      rw [this] at hcon
      exact Bool.noConfusion hcon
    · exact ⟨e, he, h1, h2, h3⟩

/-- Witness for the amended C1 at `s1c`, branch `b`. -/
theorem c1_witness :
    s1cAfter.head = "ref: refs/heads/" ++ "b" ∧ s1cAfter.currentBranch = "b" ∧
    s1cAfter.store = s1c.store ∧ s1cAfter.refs = s1c.refs ∧
    s1cAfter.index = s1c.index ∧
    (∀ e ∈ [(("f.txt" : String), ("100644" : String), (2 : TG.Oid))],
       ∃ comps d, comps ≠ [] ∧ e.1 = TG.joinAll "" comps ∧
       TG.readObject s1c.store e.2.2 = some (TG.GObj.blob d) ∧
       TG.lookupPath s1cAfter.worktree comps =
         some (TG.FSNode.file d (e.2.1 == "100755"))) ∧
    (∀ f ∈ TG.scanFiles s1cAfter.worktree,
       ∃ e ∈ [(("f.txt" : String), ("100644" : String), (2 : TG.Oid))],
         e.1 = f.1 ∧
         TG.readObject s1c.store e.2.2 = some (TG.GObj.blob f.2.1) ∧
         f.2.2 = (e.2.1 == "100755")) :=
  c1_amended 10 s1c "b" (by decide) 9 (by decide)
    ⟨9, 5, [8], "A", "A", "c2", 2⟩ (by decide)
    [("f.txt", "100644", 2)] (by decide) s1cAfter (by rfl)

/-! ## C7: no operation touches `.git` -/

/-- Inserting an object without `.git` entries preserves the store-wide
`.git`-freeness invariant. -/
theorem TreesNoGit_insert (h : TG.GObj → TG.Oid) (st : TG.Store) (o : TG.GObj)
    (hs : TG.TreesNoGit st) (ho : TG.objNoGitB o = true) :
    TG.TreesNoGit (TG.hashObject h st o).2 := by
  have hdef : (TG.hashObject h st o).2 =
      if (look st (h o)).isSome then st else (h o, o) :: st := rfl
  rw [hdef]
  split
  · exact hs
  · intro p hp
    rcases List.mem_cons.mp hp with hp | hp
    · rw [hp]; exact ho
    · exact hs p hp

/-- The snapshot recursion never writes a tree with a `.git` entry: the
loop skips `.git` names before creating entries. -/
theorem createObjList_nogit (h : TG.GObj → TG.Oid) : ∀ fuel,
    (∀ node st mode oid st2, TG.TreesNoGit st →
      TG.createObj h fuel node st = some (mode, oid, st2) → TG.TreesNoGit st2) ∧
    (∀ l st es st2, TG.TreesNoGit st →
      TG.createList h fuel l st = some (es, st2) →
      TG.TreesNoGit st2 ∧ ∀ e ∈ es, e.2.1 ≠ ".git") := by
  intro fuel
  induction fuel with
  | zero =>
    constructor
    · intro node st mode oid st2 hs hc
      cases node with
      | file c x =>
        simp only [TG.createObj, Prod.mk.injEq, Option.some_inj] at hc
        obtain ⟨_, _, hst⟩ := hc
        rw [← hst]
        exact TreesNoGit_insert h st _ hs (by simp [TG.objNoGitB])
      | dir ch => simp [TG.createObj] at hc
    · intro l st es st2 hs hc
      cases l with
      | nil =>
        simp only [TG.createList, Prod.mk.injEq, Option.some_inj] at hc
        obtain ⟨he, hst⟩ := hc
        exact ⟨hst ▸ hs, by simp [← he]⟩
      | cons p t => simp [TG.createList] at hc
  | succ n ihn =>
    obtain ⟨ihP, ihQ⟩ := ihn
    constructor
    · intro node st mode oid st2 hs hc
      cases node with
      | file c x =>
        simp only [TG.createObj, Prod.mk.injEq, Option.some_inj] at hc
        obtain ⟨_, _, hst⟩ := hc
        rw [← hst]
        exact TreesNoGit_insert h st _ hs (by simp [TG.objNoGitB])
      | dir ch =>
        simp only [TG.createObj] at hc
        rcases hl : TG.createList h n (sortByKey (fun e => e.1) ch) st with
          _ | ⟨es, st1⟩
        · rw [hl] at hc; simp at hc
        · simp only [hl, Prod.mk.injEq, Option.some_inj] at hc
          obtain ⟨_, _, hst2⟩ := hc
          rcases ihQ (sortByKey (fun e => e.1) ch) st es st1 hs hl with ⟨h1, h2⟩
          rw [← hst2]
          refine TreesNoGit_insert h st1 _ h1 ?_
          simp only [TG.objNoGitB, List.all_eq_true]
          intro e he
          simpa using h2 e he
    · intro l st es st2 hs hc
      cases l with
      | nil =>
        simp only [TG.createList, Prod.mk.injEq, Option.some_inj] at hc
        obtain ⟨he, hst⟩ := hc
        exact ⟨hst ▸ hs, by simp [← he]⟩
      | cons p t =>
        obtain ⟨name, node⟩ := p
        by_cases hg : name = ".git"
        · subst hg
          have hc2 : TG.createList h n t st = some (es, st2) := by
            simpa [TG.createList] using hc
          exact ihQ t st es st2 hs hc2
        · simp only [TG.createList, hg, if_false] at hc
          rcases ho : TG.createObj h n node st with _ | ⟨mode, oid, st1⟩
          · rw [ho] at hc; simp at hc
          · rcases hl : TG.createList h n t st1 with _ | ⟨es1, st21⟩
            · simp [ho, hl] at hc
            · simp [ho, hl] at hc
              obtain ⟨he, hst⟩ := hc
              have hst1 := ihP node st mode oid st1 hs ho
              rcases ihQ t st1 es1 st21 hst1 hl with ⟨h1, h2⟩
              subst hst
              refine ⟨h1, ?_⟩
              intro e hee
              rw [← he] at hee
              rcases List.mem_cons.mp hee with hee | hee
              · rw [hee]; exact hg
              · exact h2 e hee

/-- The snapshot root call preserves `.git`-freeness of the store. -/
theorem createTreeFromIndex_nogit (h : TG.GObj → TG.Oid) (fuel : Nat)
    (wt : List (String × TG.FSNode)) (st : TG.Store) (hng : TG.TreesNoGit st)
    (r : TG.Oid × TG.Store) (hr : TG.createTreeFromIndex h fuel wt st = some r) :
    TG.TreesNoGit r.2 := by
  unfold TG.createTreeFromIndex at hr
  rcases hl : TG.createList h fuel (sortByKey (fun e => e.1) wt) st with
    _ | ⟨es, st1⟩
  · rw [hl] at hr; simp at hr
  · rw [hl] at hr
    simp only [Option.some_inj] at hr
    rcases (createObjList_nogit h fuel).2 (sortByKey (fun e => e.1) wt) st es st1
        hng hl with ⟨h1, h2⟩
    rw [← hr]
    refine TreesNoGit_insert h st1 _ h1 ?_
    simp only [TG.objNoGitB, List.all_eq_true]
    intro e he
    simpa using h2 e he

/-- A successful `_checkout_tree` leaves the `.git` entry of the working
root untouched, provided no stored tree names a `.git` entry. -/
theorem checkoutTree_git_frame (fuel : Nat) (st : TG.Store)
    (hng : TG.TreesNoGit st) (cid : TG.Oid)
    (wt wt2 : List (String × TG.FSNode))
    (hck : TG.checkoutTree fuel st cid wt = some wt2) :
    look wt2 ".git" = look wt ".git" := by
  unfold TG.checkoutTree at hck
  rcases hpc : TG.parseCommit st cid with _ | info
  · rw [hpc] at hck; simp at hck
  · rw [hpc] at hck
    cases fuel with
    | zero => simp [TG.extractTree] at hck
    | succ f =>
      rcases hrd : TG.readObject st info.tree with _ | obj
      · simp [TG.extractTree, hrd] at hck
      · cases obj with
        | blob d => simp [TG.extractTree, hrd] at hck
        | commit t2 ps a c m dd => simp [TG.extractTree, hrd] at hck
        | tree es =>
          have hx : TG.extractEntries st f es
              (List.filter (fun c => c.1 == ".git") wt) = some wt2 := by
            simpa [TG.extractTree, hrd] using hck
          have hns : ∀ e ∈ es, e.2.1 ≠ ".git" :=
            all_nogit_of_objNoGitB (hng _ (look_mem hrd))
          rw [extractEntries_frame st f es _ wt2 hx ".git" hns]
          exact look_filter_git wt

/-- A successful `TrueGit.commit` does not touch the working tree and
keeps the store free of `.git` tree entries. -/
theorem commit_nogit_frame (h : TG.GObj → TG.Oid) (fuel : Nat)
    (s : TG.GitState) (message author committer : String) (date : Nat)
    (hng : TG.TreesNoGit s.store) (cid : TG.Oid) (s3 : TG.GitState)
    (hc : TG.commit h fuel s message author committer date = some (cid, s3)) :
    s3.worktree = s.worktree ∧ TG.TreesNoGit s3.store := by
  simp only [TG.commit] at hc
  rcases hct : TG.createTreeFromIndex h fuel s.worktree s.store with
    _ | ⟨treeSha, st1⟩
  · rw [hct] at hc; simp at hc
  · rw [hct] at hc
    have hst1 : TG.TreesNoGit st1 :=
      createTreeFromIndex_nogit h fuel s.worktree s.store hng (treeSha, st1) hct
    rcases hpar : TG.getHeadCommit s with _ | ptip <;> rw [hpar] at hc <;>
      simp only at hc
    · rcases hrb : TG.rebuildIndexFromTree
          (TG.hashObject h st1
            (TG.GObj.commit treeSha [] author committer message date)).2
          fuel treeSha "" s.index with _ | idx
      · rw [hrb] at hc; simp at hc
      · rw [hrb] at hc
        simp only [Option.some_inj, Prod.mk.injEq] at hc
        obtain ⟨_, hs3⟩ := hc
        rw [← hs3]
        exact ⟨rfl, TreesNoGit_insert h st1 _ hst1 rfl⟩
    · rcases hrb : TG.rebuildIndexFromTree
          (TG.hashObject h st1
            (TG.GObj.commit treeSha [ptip] author committer message date)).2
          fuel treeSha "" s.index with _ | idx
      · rw [hrb] at hc; simp at hc
      · rw [hrb] at hc
        simp only [Option.some_inj, Prod.mk.injEq] at hc
        obtain ⟨_, hs3⟩ := hc
        rw [← hs3]
        exact ⟨rfl, TreesNoGit_insert h st1 _ hst1 rfl⟩

/-- C7: the working-tree scanner never reports a path with a `.git`
component; a successful checkout leaves the `.git` entry of the working
root — the entire git directory — untouched; a successful commit does not
modify the working tree at all and keeps the store free of `.git` tree
entries; and every modified or untracked path reported by status avoids
`.git`. -/
theorem c7_no_git_touched (h : TG.GObj → TG.Oid) (fuel : Nat)
    (s : TG.GitState) (b message author committer : String) (date : Nat)
    (hng : TG.TreesNoGit s.store)
    (s2 : TG.GitState) (hsw : TG.switch fuel s b = some s2)
    (cid : TG.Oid) (s3 : TG.GitState)
    (hc : TG.commit h fuel s message author committer date = some (cid, s3))
    (res : TG.StatusResult) (hst : TG.status fuel s = some res) :
    (∀ f ∈ TG.scanFiles s.worktree,
       ((pathComponents f.1).contains ".git") = false) ∧
    look s2.worktree ".git" = look s.worktree ".git" ∧
    s3.worktree = s.worktree ∧ TG.TreesNoGit s3.store ∧
    (∀ n ∈ res.modified ++ res.untracked,
       ((pathComponents n).contains ".git") = false) := by
  have hscan : ∀ f ∈ TG.scanFiles s.worktree,
      ((pathComponents f.1).contains ".git") = false := by
    intro f hf
    have hf2 := List.mem_filter.mp hf
    have := hf2.2
    simpa [Bool.not_eq_true'] using this
  refine ⟨hscan, ?_, ?_, ?_, ?_⟩
  · rcases hcid : look s.refs b with _ | cid0
    · simp [TG.switch, hcid] at hsw
    · simp only [TG.switch, hcid] at hsw
      rcases hck : TG.checkoutTree fuel s.store cid0 s.worktree with _ | wt2
      · rw [hck] at hsw; simp at hsw
      · rw [hck] at hsw
        simp only [Option.some_inj] at hsw
        rw [← hsw]
        exact checkoutTree_git_frame fuel s.store hng cid0 s.worktree wt2 hck
  · exact (commit_nogit_frame h fuel s message author committer date hng
      cid s3 hc).1
  · exact (commit_nogit_frame h fuel s message author committer date hng
      cid s3 hc).2
  · intro n hn
    unfold TG.status at hst
    rcases hhc : TG.getHeadCommit s with _ | hc0
    · rw [hhc] at hst
      simp only [Option.some_inj] at hst
      rw [← hst] at hn
      simp only [List.mem_append] at hn
      rcases hn with hn | hn
      · simp at hn
      · have hn2 := (sortByKey_perm id _).mem_iff.mp hn
        rcases List.mem_map.mp hn2 with ⟨f, hf, hfe⟩
        rw [← hfe]
        exact hscan f hf
    · rw [hhc] at hst
      simp only at hst
      rcases htf : TG.getTreeFiles s.store fuel hc0 with _ | headFiles
      · rw [htf] at hst; simp at hst
      · rw [htf] at hst
        simp only [Option.some_inj] at hst
        rw [← hst] at hn
        simp only [List.mem_append] at hn
        rcases hn with hn | hn
        · have hn2 := (sortByKey_perm id _).mem_iff.mp hn
          rcases List.mem_map.mp hn2 with ⟨f, hf, hfe⟩
          rw [← hfe]
          exact hscan f (List.mem_of_mem_filter hf)
        · have hn2 := (sortByKey_perm id _).mem_iff.mp hn
          rcases List.mem_map.mp hn2 with ⟨f, hf, hfe⟩
          rw [← hfe]
          exact hscan f (List.mem_of_mem_filter hf)

/-- Witness for C7 at the concrete repository `s7`. -/
theorem c7_witness :
    (∀ f ∈ TG.scanFiles s7.worktree,
       ((pathComponents f.1).contains ".git") = false) ∧
    look s7After.worktree ".git" = look s7.worktree ".git" ∧
    s7c.worktree = s7.worktree ∧ TG.TreesNoGit s7c.store ∧
    (∀ n ∈ s7res.modified ++ s7res.untracked,
       ((pathComponents n).contains ".git") = false) :=
  c7_no_git_touched encGObj 10 s7 "main" "m" "A" "A" 1 (by decide)
    s7After (by rfl) c7cid s7c (by rfl) s7res (by decide)

/-- Witness for C9 at the concrete repository `s9`. -/
theorem c9_witness :
    SG.sgDelete encGObj 5 s9 "u.txt" "main" "del" 1 =
      some ({ success := false, deleted := false, commit := none,
              branch := "main", file := "u.txt", message := "del",
              error := some "File not tracked" },
        { s9 with worktree := [], index := [] }) ∧
    look ([] : List (String × Bordoc.Bytes)) "u.txt" = none :=
  c9_delete_not_atomic encGObj 5 s9 "u.txt" "main" "del" 1 (by decide)
    9 (by rfl) 2 [] "A" "A" "init" 0 (by rfl) [] (by rfl) [] (by rfl)
    (by rfl) (by decide) (by decide)

end Bordoc
